import Mathlib

/-!
Verification of the smart-grid decision engine.

This file gives a shallow embedding of `src/decision_engine.py`: the row-level
pattern classifier (`detect_pattern`), the per-meter baseline statistics built by
`analyze_patterns` via a pandas groupby, the transformer-overload aggregator
(`check_transformer_overload`), and the orchestrator (`run_engine`, modelled from
its pure core: classify, attach the alert column, sort by risk descending).

Conventions of the embedding:
* Python floats are modelled as rationals; all the engine's arithmetic is
  comparisons, means and divisions, which are exact over the rationals.  The one
  exception is the standard deviation used by the power-spike rule: pandas
  supplies `power_std = sqrt(power_var)`, and the rule's test
  `abs((p - mean) / max(std, 0.001)) > 3.0` is encoded by the exactly equivalent
  square form `(p - mean)^2 > 9 * max(var, 0.000001)` (both sides of the original
  comparison are nonnegative, and `max(sqrt(var), 0.001)^2 = max(var, 0.000001)`).
* pandas `std` of a single-row group is NaN, and every comparison against NaN is
  false, so the power-spike rule can never fire for a meter with one reading;
  the sample variance is therefore an `Option`, with `none` playing NaN's role.
* A missing column in a pandas row (`"voltage" in row`) is an `Option` field.
* Explanation strings interpolate the triggering numbers; they are modelled as a
  tagged value carrying exactly those numbers, one constructor per rule.
* File I/O, CSV loading and the external `preprocess` step are outside the
  engine; `run_engine` is modelled from the processed feature table onward, and
  the trained model is an abstract per-row function `Reading → Int × ℚ`
  (prediction, anomaly score), `none` when the model path does not exist.
-/

namespace SmartGrid

open scoped List

/-- Explanation payloads, one constructor per classifier rule plus the
transformer-overload override.  Each carries the numbers the Python f-string
interpolates.  For `powerSpike` the rendered z-score is determined by
`(power, powerMean, powerVar)`; for `overload` the message shows
`(pct * 100).round(0)`. -/
inductive Expl where
  | theftSig (voltage voltageMean current currentMean : ℚ)
  | powerSpike (power powerMean powerVar : ℚ)
  | suppression (ratio power rollingAvg : ℚ)
  | aiAnomaly (score : ℚ)
  | normalOp
  | overload (pct : ℚ)
deriving DecidableEq

/-- The row as `detect_pattern` sees it: a pandas Series whose optional columns
are `Option` fields.  `prediction` and `anomaly_score` are read with
`row.get(..., default)`, hence also optional. -/
structure PRow where
  meter_id : String
  prediction : Option Int
  anomaly_score : Option ℚ
  voltage : Option ℚ
  current : Option ℚ
  power : Option ℚ
  rolling_avg_power : Option ℚ
deriving DecidableEq

/-- One row of `grouped_stats` (`df.groupby("meter_id").agg(...)`): the per-meter
means of voltage, current and power, and the sample variance of power
(`power_var = power_std^2`; `none` models pandas's NaN std for singleton
groups).  The unused voltage/current std columns are omitted. -/
structure Stats where
  voltage_mean : ℚ
  current_mean : ℚ
  power_mean : ℚ
  power_var : Option ℚ
deriving DecidableEq

/-- `row.get("prediction", 1) == -1`. -/
def is_anomaly (row : PRow) : Bool :=
  row.prediction.getD 1 == -1

/-- Rule 4 and rule 5 of `detect_pattern` (the code after the three early
returns): AI-flagged anomaly, else normal. -/
def detectFromAI (row : PRow) : String × ℚ × Expl :=
  if is_anomaly row then
    ("anomaly", 0.5, Expl.aiAnomaly (row.anomaly_score.getD 0))
  else
    ("normal", 0, Expl.normalOp)

/-- Rule 3 of `detect_pattern` (consumption suppression), falling through to
rule 4.  Guard: `"power" in row and "rolling_avg_power" in row`. -/
def detectFromSupp (row : PRow) : String × ℚ × Expl :=
  match row.power, row.rolling_avg_power with
  | some p, some ra =>
    let ratio := p / max ra 0.001
    if ratio < 0.5 then
      ("theft", if is_anomaly row then 0.8 else 0.5, Expl.suppression ratio p ra)
    else detectFromAI row
  | _, _ => detectFromAI row

/-- Rule 2 of `detect_pattern` (power spike), falling through to rule 3.
Guard: `"power" in row`; the z-score test is the square form explained in the
file header, and a `none` variance (NaN std) makes the test false exactly as
NaN propagation does in Python. -/
def detectFromFault (row : PRow) (stats : Stats) : String × ℚ × Expl :=
  match row.power, stats.power_var with
  | some p, some w =>
    if (p - stats.power_mean) ^ 2 > 9 * max w 0.000001 then
      ("fault", if is_anomaly row then 0.7 else 0.4,
        Expl.powerSpike p stats.power_mean w)
    else detectFromSupp row
  | _, _ => detectFromSupp row

/-- `detect_pattern(row, grouped_stats)`: the ordered first-match-wins rule
chain.  The Python early returns are modelled by the continuation functions
`detectFromFault`, `detectFromSupp`, `detectFromAI`.  Rule 1 guard:
`"voltage" in row and "current" in row`. -/
def detect_pattern (row : PRow) (grouped_stats : String → Stats) : String × ℚ × Expl :=
  let stats := grouped_stats row.meter_id
  match row.voltage, row.current with
  | some v, some c =>
    if v < 0.85 * stats.voltage_mean ∧ c > 1.3 * stats.current_mean then
      ("theft", if is_anomaly row then 0.9 else 0.6,
        Expl.theftSig v stats.voltage_mean c stats.current_mean)
    else detectFromFault row stats
  | _, _ => detectFromFault row stats

/-- A processed reading: one row of the feature table handed to
`analyze_patterns` (the external preprocessing contract guarantees all feature
columns are present; `transformer_id` may be missing per row, `none` playing
NaN's role, and a table lacking the column altogether behaves like all-`none`). -/
structure Reading where
  meter_id : String
  timestamp : Nat
  transformer_id : Option String
  kwh_denoised : ℚ
  power : ℚ
  rolling_avg_power : ℚ
  deviation_from_normal : ℚ
  voltage : ℚ
  current : ℚ
  energy_kwh : ℚ
deriving DecidableEq

instance : Inhabited Reading :=
  ⟨{ meter_id := "", timestamp := 0, transformer_id := none, kwh_denoised := 0,
     power := 0, rolling_avg_power := 0, deviation_from_normal := 0,
     voltage := 0, current := 0, energy_kwh := 0 }⟩

/-- A decision row: the reading plus the columns `analyze_patterns` adds. -/
structure DRow extends Reading where
  prediction : Int
  anomaly_score : ℚ
  pattern : String
  risk_score : ℚ
  explanation : Expl
deriving DecidableEq

instance : Inhabited DRow :=
  ⟨{ toReading := default, prediction := 1, anomaly_score := 0,
     pattern := "normal", risk_score := 0, explanation := Expl.normalOp }⟩

/-- A decision row after `run_engine` attaches the `alert` column. -/
structure FRow extends DRow where
  alert : Bool
deriving DecidableEq

instance : Inhabited FRow := ⟨{ toDRow := default, alert := false }⟩

/-- pandas `mean` of a column (groups are nonempty wherever the engine looks
one up, so the `0 / 0 = 0` convention of rational division is never observed). -/
def listMean (l : List ℚ) : ℚ :=
  l.sum / l.length

/-- pandas sample variance (`ddof = 1`); NaN — modelled as `none` — on groups
of fewer than two rows. -/
def sampleVar (l : List ℚ) : Option ℚ :=
  if l.length ≤ 1 then none
  else some ((l.map (fun x => (x - listMean l) ^ 2)).sum / ((l.length : ℚ) - 1))

/-- The `grouped_stats` table of `analyze_patterns`:
`df.groupby("meter_id").agg({... mean, std ...})`, looked up by meter id. -/
def statsFor (df : List Reading) (m : String) : Stats :=
  let grp := (df.filter (fun r => decide (r.meter_id = m))).map (·.power)
  { voltage_mean :=
      listMean ((df.filter (fun r => decide (r.meter_id = m))).map (·.voltage)),
    current_mean :=
      listMean ((df.filter (fun r => decide (r.meter_id = m))).map (·.current)),
    power_mean := listMean grp,
    power_var := sampleVar grp }

/-- The per-row classification pass of `analyze_patterns` (lines 71-84): add the
model columns (`prediction = 1`, `anomaly_score = 0.0` when no model), build
`grouped_stats`, and apply `detect_pattern` row-wise. -/
def classify_rows (rows : List Reading) (model : Option (Reading → Int × ℚ)) :
    List DRow :=
  rows.map (fun r =>
    let pr :=
      match model with
      | some f => f r
      | none => (1, 0)
    let res :=
      detect_pattern
        { meter_id := r.meter_id, prediction := some pr.1,
          anomaly_score := some pr.2, voltage := some r.voltage,
          current := some r.current, power := some r.power,
          rolling_avg_power := some r.rolling_avg_power }
        (statsFor rows)
    { toReading := r, prediction := pr.1, anomaly_score := pr.2,
      pattern := res.1, risk_score := res.2.1, explanation := res.2.2 })

/-- `df.groupby("meter_id")["power"].transform("mean")` evaluated at meter `m`. -/
def meterPowerMean (df : List DRow) (m : String) : ℚ :=
  listMean ((df.filter (fun r => decide (r.meter_id = m))).map (·.power))

/-- `high_load` for one row: its power exceeds 1.2 times its own meter's mean
power over the batch. -/
def highLoad (df : List DRow) (r : DRow) : Bool :=
  decide (r.power > meterPowerMean df r.meter_id * 1.2)

/-- `overload_pct` for the `(transformer, timestamp)` group: the fraction of the
group's rows that are `high_load` (`high_load[x.index].mean()`).  Rows with a
missing `transformer_id` belong to no group (pandas groupby drops NaN keys). -/
def overloadPct (df : List DRow) (t : String) (ts : Nat) : ℚ :=
  let grp := df.filter (fun r => decide (r.transformer_id = some t ∧ r.timestamp = ts))
  listMean (grp.map (fun r => if highLoad df r then 1 else 0))

/-- The row-wise effect of the three masked assignments of
`check_transformer_overload`: a row in a group whose overload fraction strictly
exceeds the threshold gets pattern/risk/explanation forced; any other row —
in particular every row with a missing `transformer_id` — is unchanged. -/
def overload_update (df : List DRow) (threshold : ℚ) (r : DRow) : DRow :=
  match r.transformer_id with
  | none => r
  | some t =>
    if overloadPct df t r.timestamp > threshold then
      { r with pattern := "transformer_overload", risk_score := 0.85,
               explanation := Expl.overload (overloadPct df t r.timestamp) }
    else r

/-- `check_transformer_overload` (lines 56-67): the boolean overload mask and
the three masked column assignments, applied row-wise.  A table lacking the
`transformer_id` column altogether returns early in the Python; it behaves like
a table in which every row's `transformer_id` is missing, which this embedding
maps through unchanged. -/
def check_transformer_overload (df : List DRow) (threshold : ℚ := 0.7) :
    List DRow :=
  df.map (overload_update df threshold)

/-- `analyze_patterns` (lines 70-86): row-wise classification followed by the
transformer-overload post-pass. -/
def analyze_patterns (rows : List Reading) (model : Option (Reading → Int × ℚ)) :
    List DRow :=
  check_transformer_overload (classify_rows rows model)

/-- `decisions["alert"] = decisions["pattern"] != "normal"` (line 107). -/
def add_alert (df : List DRow) : List FRow :=
  df.map (fun r => { toDRow := r, alert := decide (r.pattern ≠ "normal") })

/-!
The final step of `run_engine` is
`decisions.sort_values("risk_score", ascending=False)` with pandas's default
`kind='quicksort'`.  For a single key column pandas computes
`indexer = nargsort(values, kind, ascending)` and takes the rows along it;
`nargsort` with `ascending=False` reverses the values, runs
`values[::-1].argsort(kind='quicksort')`, maps the result through the reversed
index range and reverses the indexer again.  numpy's `quicksort` for the argsort
is introsort: median-of-three quicksort down to partitions of at most
16 elements (`SMALL_QUICKSORT = 15`), which are finished by a stable insertion
sort; a depth limit of `2 * floor(log2 n)` switches exhausted partitions to
heapsort.  The embedding below follows `numpy/core/src/npysort/quicksort.c.src`
(`aquicksort`) and `heapsort.c.src` (`aheapsort`); the explicit stack becomes
recursion (the stacked partitions are disjoint index ranges, so the evaluation
order cannot matter), the unbounded C loops carry a fuel argument large enough
to be unreachable, and the per-partition insertion sort — a stable sort of the
segment — is written as the stable `List.mergeSort` of the segment's slice,
which is extensionally the same function.
-/

/-- The sort key of the entry `t[k]` of the index array. -/
def vAt (v : Array ℚ) (t : Array Nat) (k : Nat) : ℚ :=
  v.getD (t.getD k 0) 0

/-- Swap two entries of the index array (total: out-of-range positions are
never produced by the algorithm). -/
def aswap (t : Array Nat) (i j : Nat) : Array Nat :=
  let a := t.getD i 0
  let b := t.getD j 0
  (t.setD i b).setD j a

/-- `do ++pi; while (v[*pi] < vp)`: first position after `pi` whose key is not
below the pivot. -/
def scanUp (v : Array ℚ) (t : Array Nat) (vp : ℚ) (pi : Nat) : Nat → Nat
  | 0 => pi + 1
  | fuel + 1 =>
    if vAt v t (pi + 1) < vp then scanUp v t vp (pi + 1) fuel else pi + 1

/-- `do --pj; while (vp < v[*pj])`: first position before `pj` whose key is not
above the pivot. -/
def scanDown (v : Array ℚ) (t : Array Nat) (vp : ℚ) (pj : Nat) : Nat → Nat
  | 0 => pj - 1
  | fuel + 1 =>
    if vp < vAt v t (pj - 1) then scanDown v t vp (pj - 1) fuel else pj - 1

/-- The pointer-crossing loop of the partition step. -/
def partLoop (v : Array ℚ) (vp : ℚ) : Array Nat → Nat → Nat → Nat → Array Nat × Nat
  | t, pi, _, 0 => (t, pi)
  | t, pi, pj, fuel + 1 =>
    let pi' := scanUp v t vp pi (t.size + 1)
    let pj' := scanDown v t vp pj (t.size + 1)
    if pi' ≥ pj' then (t, pi')
    else partLoop v vp (aswap t pi' pj') pi' pj' fuel

/-- One quicksort partition of `t[pl..pr]`: median-of-three pivot selection,
pivot parked at `pr - 1`, pointer crossing, pivot swapped back to the crossing
point.  Returns the new index array and the pivot's final position. -/
def partitionStep (v : Array ℚ) (t : Array Nat) (pl pr : Nat) : Array Nat × Nat :=
  let pm := pl + (pr - pl) / 2
  let t := if vAt v t pm < vAt v t pl then aswap t pm pl else t
  let t := if vAt v t pr < vAt v t pm then aswap t pr pm else t
  let t := if vAt v t pm < vAt v t pl then aswap t pm pl else t
  let vp := vAt v t pm
  let t := aswap t pm (pr - 1)
  let res := partLoop v vp t pl (pr - 1) (pr - pl + 2)
  (aswap res.1 res.2 (pr - 1), res.2)

/-- The insertion sort numpy runs on partitions of at most 16 elements,
written as the stable sort of the slice `t[pl..pr]` (numpy's in-place insertion
loop inserts each element before the run of strictly greater keys, i.e. it is
exactly the stable sort of the segment by key). -/
def insSortRange (v : Array ℚ) (t : Array Nat) (pl pr : Nat) : Array Nat :=
  if pr ≤ pl then t
  else
    let l := t.toList
    let seg := (l.drop pl).take (pr + 1 - pl)
    ((l.take pl) ++
      seg.mergeSort (fun a b => decide (v.getD a 0 ≤ v.getD b 0)) ++
      l.drop (pr + 1)).toArray

/-- Entry `k` (1-based) of the subarray `t[base..]`, as `aheapsort` addresses it. -/
def getA (t : Array Nat) (base k : Nat) : Nat :=
  t.getD (base + k - 1) 0

/-- Write entry `k` (1-based) of the subarray `t[base..]`. -/
def setA (t : Array Nat) (base k x : Nat) : Array Nat :=
  t.setD (base + k - 1) x

/-- The sift-down loop of `aheapsort`: the held element `tmp` sinks from hole
`i` with child `j` in a heap of `n` entries. -/
def siftDown (v : Array ℚ) (base n tmp : Nat) : Array Nat → Nat → Nat → Nat → Array Nat
  | t, i, _, 0 => setA t base i tmp
  | t, i, j, fuel + 1 =>
    if j ≤ n then
      let j := if j < n ∧ v.getD (getA t base j) 0 < v.getD (getA t base (j + 1)) 0
               then j + 1 else j
      if v.getD tmp 0 < v.getD (getA t base j) 0 then
        siftDown v base n tmp (setA t base i (getA t base j)) j (2 * j) fuel
      else setA t base i tmp
    else setA t base i tmp

/-- Heap construction of `aheapsort`: sift positions `n/2` down to `1`. -/
def heapBuild (v : Array ℚ) (base n : Nat) : Array Nat → Nat → Array Nat
  | t, 0 => t
  | t, l + 1 =>
    heapBuild v base n
      (siftDown v base n (getA t base (l + 1)) t (l + 1) (2 * (l + 1)) (n + 1)) l

/-- Extraction phase of `aheapsort`: repeatedly move the root behind the heap
and re-sift. -/
def heapExtract (v : Array ℚ) (base : Nat) : Array Nat → Nat → Array Nat
  | t, 0 => t
  | t, 1 => t
  | t, m + 1 =>
    let tmp := getA t base (m + 1)
    let t := setA t base (m + 1) (getA t base 1)
    let t := siftDown v base m tmp t 1 2 (m + 2)
    heapExtract v base t m

/-- `aheapsort` on the index range `t[pl..pr]` (numpy's depth-limit fallback;
unreachable for every input size this development evaluates). -/
def heapsortRange (v : Array ℚ) (t : Array Nat) (pl pr : Nat) : Array Nat :=
  let n := pr + 1 - pl
  heapExtract v pl (heapBuild v pl n t (n / 2)) n

/-- The recursive core of numpy's `aquicksort`: partitions above
`SMALL_QUICKSORT = 15` elements are split (smaller side first, exactly the
order the explicit C stack produces), partitions at or below it are insertion
sorted, and a partition whose depth budget is exhausted is heapsorted.  The
fuel is one more than the range width at the top call, which the strictly
shrinking ranges can never consume. -/
def qsRec (v : Array ℚ) : Array Nat → Nat → Nat → Int → Nat → Array Nat
  | t, _, _, _, 0 => t
  | t, pl, pr, cdepth, fuel + 1 =>
    if pr - pl > 15 then
      if cdepth < 0 then heapsortRange v t pl pr
      else
        let pt := partitionStep v t pl pr
        if pt.2 - pl < pr - pt.2 then
          qsRec v (qsRec v pt.1 pl (pt.2 - 1) (cdepth - 1) fuel)
            (pt.2 + 1) pr (cdepth - 1) fuel
        else
          qsRec v (qsRec v pt.1 (pt.2 + 1) pr (cdepth - 1) fuel)
            pl (pt.2 - 1) (cdepth - 1) fuel
    else insSortRange v t pl pr

/-- numpy `values.argsort(kind='quicksort')`: introsort over the identity index
array, depth budget `2 * floor(log2 n)` (`npy_get_msb(num) * 2`). -/
def aquicksort (v : Array ℚ) : Array Nat :=
  qsRec v (List.range v.size).toArray 0 (v.size - 1)
    ((2 * Nat.log2 v.size : Nat) : Int) (v.size + 1)

/-- pandas `nargsort(values, kind='quicksort', ascending=False)` for a NaN-free
key column: argsort the reversed values, map through the reversed index range,
reverse the indexer. -/
def nargsortDesc (vals : List ℚ) : List Nat :=
  (((aquicksort vals.reverse.toArray).toList).map
    (fun i => vals.length - 1 - i)).reverse

/-- `decisions.sort_values("risk_score", ascending=False)` (line 108): take the
rows along the descending indexer. -/
def sort_values_desc (df : List FRow) : List FRow :=
  (nargsortDesc (df.map (·.risk_score))).map (fun i => df.getD i default)

/-- `run_engine` modelled from its pure core (lines 106-108): classify the
processed readings, attach the alert column, sort by risk descending.  Loading
the CSV, the external `preprocess`, and the artifact lookup are abstracted into
the `rows` and `model` arguments (`model = none` exactly when no model file
exists). -/
def run_engine (rows : List Reading) (model : Option (Reading → Int × ℚ)) :
    List FRow :=
  sort_values_desc (add_alert (analyze_patterns rows model))

/-- The risk score of the row at position `i` of the decision table. -/
def riskAt (l : List FRow) (i : Nat) : ℚ :=
  (l.getD i default).risk_score

/-- Total order on row positions: higher risk first, original position first
among equal risks.  Sorting the positions by this order is precisely "risk
descending, ties in original row order". -/
def riskIdxLE (l : List FRow) (i j : Nat) : Bool :=
  decide (riskAt l j < riskAt l i ∨ (riskAt l i = riskAt l j ∧ i ≤ j))

/-- The stable descending-by-risk sort of a decision table, the order §4.5 of
the spec promises: positions sorted by `riskIdxLE`, rows taken along them. -/
def stableSortByRiskDesc (l : List FRow) : List FRow :=
  ((List.range l.length).mergeSort (riskIdxLE l)).map (fun i => l.getD i default)

/-- Strict "key descending, position ascending" order on positions of a key
list: the unique order a stable descending sort realises.  (Proof-side helper
for relating the embedded pandas sort to `stableSortByRiskDesc`.) -/
def descLex (vals : List ℚ) (i j : Nat) : Prop :=
  vals.getD j 0 < vals.getD i 0 ∨ (vals.getD i 0 = vals.getD j 0 ∧ i < j)

/-- Keys ascending along positions `pl..pr` of the index array (proof-side
predicate for the introsort verification). -/
def SortedRange (v : Array ℚ) (t : Array Nat) (pl pr : Nat) : Prop :=
  ∀ k k', pl ≤ k → k ≤ k' → k' ≤ pr → vAt v t k ≤ vAt v t k'

/-- Positions outside `pl..pr` are unchanged (proof-side predicate). -/
def EqOutside (t t' : Array Nat) (pl pr : Nat) : Prop :=
  ∀ k, k < pl ∨ pr < k → t'.getD k 0 = t.getD k 0

/-- The entries at positions `pl..pr` of the index array, as a list
(proof-side). -/
def sliceD (t : Array Nat) (pl pr : Nat) : List Nat :=
  (List.range (pr + 1 - pl)).map (fun k => t.getD (pl + k) 0)

/-- Every entry `t'` holds in `pl..pr` already occurred in `t`'s `pl..pr`
(proof-side predicate). -/
def RangeSub (t t' : Array Nat) (pl pr : Nat) : Prop :=
  ∀ x ∈ sliceD t' pl pr, x ∈ sliceD t pl pr

/-- `q` lies in the subtree rooted at `i` of the implicit 1-based heap
(proof-side predicate for the `aheapsort` verification). -/
def inSub (i q : Nat) : Prop := ∃ d, q / 2 ^ d = i

/-- The key of 1-based heap entry `q` of the heap living at `t[base..]`
(proof-side). -/
def keyA (v : Array ℚ) (t : Array Nat) (base q : Nat) : ℚ :=
  v.getD (getA t base q) 0

/-- The parent-child heap inequalities of the 1-based heap living at
`t[base..base+n-1]`, restricted to edges whose parent satisfies `P`
(proof-side predicate). -/
def heapEdges (v : Array ℚ) (t : Array Nat) (base n : Nat) (P : Nat → Prop) : Prop :=
  ∀ q, 2 ≤ q → q ≤ n → P (q / 2) →
    keyA v t base q ≤ keyA v t base (q / 2)

/-! ## Concrete data used by witnesses and the stability counterexample -/

/-- A nominal reading: at baseline on every signal. -/
def sampleReading : Reading :=
  { meter_id := "M", timestamp := 0, transformer_id := none, kwh_denoised := 1,
    power := 5, rolling_avg_power := 5, deviation_from_normal := 0,
    voltage := 230, current := 10, energy_kwh := 1 }

/-- The decision row the engine produces for `sampleReading` with no model. -/
def sampleDecision : DRow :=
  { toReading := sampleReading, prediction := 1, anomaly_score := 0,
    pattern := "normal", risk_score := 0, explanation := Expl.normalOp }

/-- The final row for `sampleReading`: no alert. -/
def sampleFinal : FRow :=
  { toDRow := sampleDecision, alert := false }

/-- Seventeen nominal readings of one meter at timestamps 0..16: every row
classifies `normal` with risk 0, so the final sort faces seventeen equal keys —
one more row than numpy's insertion-sort cutoff. -/
def seventeenRows : List Reading :=
  (List.range 17).map (fun ts => { sampleReading with timestamp := ts })

/-- Three nominal readings: a tied table small enough for the stable
insertion-sort path. -/
def threeRows : List Reading :=
  (List.range 3).map (fun ts => { sampleReading with timestamp := ts })

/-! ## Helper lemmas about the rule chain -/

/-- Every outcome of the rule chain is one of the five pattern/risk
combinations the classifier can produce. -/
lemma detect_pattern_shape (row : PRow) (gs : String → Stats) :
    ((detect_pattern row gs).1 = "theft" ∧
      ((detect_pattern row gs).2.1 = 0.9 ∨ (detect_pattern row gs).2.1 = 0.6 ∨
       (detect_pattern row gs).2.1 = 0.8 ∨ (detect_pattern row gs).2.1 = 0.5)) ∨
    ((detect_pattern row gs).1 = "fault" ∧
      ((detect_pattern row gs).2.1 = 0.7 ∨ (detect_pattern row gs).2.1 = 0.4)) ∨
    ((detect_pattern row gs).1 = "anomaly" ∧ (detect_pattern row gs).2.1 = 0.5) ∨
    ((detect_pattern row gs).1 = "normal" ∧ (detect_pattern row gs).2.1 = 0) := by
  unfold detect_pattern detectFromFault detectFromSupp detectFromAI
  generalize gs row.meter_id = s
  obtain ⟨vm, cm, pm, pv⟩ := s
  rcases row.voltage with _ | v <;> rcases row.current with _ | c <;>
    rcases row.power with _ | p <;> rcases row.rolling_avg_power with _ | ra <;>
    rcases pv with _ | w <;> cases h : is_anomaly row <;>
    simp [h] <;> split_ifs <;> simp

/-- With the outlier verdict defaulted to `prediction = 1` the chain never
reaches the anomaly rule and all outlier-dependent risks take the non-flagged
value; the explanation constructor identifies which rule fired. -/
lemma detect_pattern_shape_no_model (row : PRow) (gs : String → Stats)
    (hpred : row.prediction = some 1) :
    ((detect_pattern row gs).1 = "theft" ∧
      (((∃ v vm c cm, (detect_pattern row gs).2.2 = Expl.theftSig v vm c cm) ∧
          (detect_pattern row gs).2.1 = 0.6) ∨
       ((∃ ratio p ra, (detect_pattern row gs).2.2 = Expl.suppression ratio p ra) ∧
          (detect_pattern row gs).2.1 = 0.5))) ∨
    ((detect_pattern row gs).1 = "fault" ∧ (detect_pattern row gs).2.1 = 0.4 ∧
      ∃ p pm w, (detect_pattern row gs).2.2 = Expl.powerSpike p pm w) ∨
    ((detect_pattern row gs).1 = "normal" ∧ (detect_pattern row gs).2.1 = 0 ∧
      (detect_pattern row gs).2.2 = Expl.normalOp) := by
  have hanom : is_anomaly row = false := by
    simp [is_anomaly, hpred]
  unfold detect_pattern detectFromFault detectFromSupp detectFromAI
  rw [hanom]
  generalize gs row.meter_id = s
  obtain ⟨vm, cm, pm, pv⟩ := s
  rcases row.voltage with _ | v <;> rcases row.current with _ | c <;>
    rcases row.power with _ | p <;> rcases row.rolling_avg_power with _ | ra <;>
    rcases pv with _ | w <;>
    simp <;> split_ifs <;> simp

/-! ## C3: rule precedence, theft-signature before power-spike -/

/-- C3.  A reading that satisfies both the theft electrical-signature condition
(voltage below 0.85 of the baseline mean voltage, current above 1.30 of the
baseline mean current) and the fault power-spike condition (z-score magnitude
above 3, encoded in the exact square form) is classified `theft`, never
`fault`: rule 1 precedes rule 2 and the first matching rule wins. -/
theorem detect_pattern_theft_precedes_fault (row : PRow) (gs : String → Stats)
    (v c p w : ℚ)
    (hv : row.voltage = some v) (hc : row.current = some c)
    (hp : row.power = some p) (hw : (gs row.meter_id).power_var = some w)
    (hsig : v < 0.85 * (gs row.meter_id).voltage_mean ∧
            c > 1.3 * (gs row.meter_id).current_mean)
    (hspike : (p - (gs row.meter_id).power_mean) ^ 2 > 9 * max w 0.000001) :
    (detect_pattern row gs).1 = "theft" ∧ (detect_pattern row gs).1 ≠ "fault" := by
  simp only [detect_pattern, hv, hc]
  rw [if_pos hsig]
  simp

/-- Witness for C3: a concrete reading (190 V against a 230 V baseline mean,
14 A against a 10 A baseline mean, 9.2 kW against mean 5 and variance 1)
satisfies both rule conditions and is classified `theft`. -/
theorem detect_pattern_theft_precedes_fault_witness :
    ((190 : ℚ) < 0.85 * 230 ∧ (14 : ℚ) > 1.3 * 10) ∧
    (((9.2 : ℚ) - 5) ^ 2 > 9 * max 1 0.000001) ∧
    ((detect_pattern
        { meter_id := "M1", prediction := none, anomaly_score := none,
          voltage := some 190, current := some 14, power := some 9.2,
          rolling_avg_power := some 9.2 }
        (fun _ =>
          { voltage_mean := 230, current_mean := 10, power_mean := 5,
            power_var := some 1 })).1 = "theft" ∧
      (detect_pattern
        { meter_id := "M1", prediction := none, anomaly_score := none,
          voltage := some 190, current := some 14, power := some 9.2,
          rolling_avg_power := some 9.2 }
        (fun _ =>
          { voltage_mean := 230, current_mean := 10, power_mean := 5,
            power_var := some 1 })).1 ≠ "fault") :=
  ⟨by norm_num, by norm_num,
    detect_pattern_theft_precedes_fault _ _ 190 14 9.2 1 rfl rfl rfl rfl
      (by norm_num) (by norm_num)⟩

/-! ## C10: absent optional columns skip rules, never fail -/

/-- C10.  Missing optional columns make the classifier skip exactly the rules
that read them and fall through to the rest of the chain: a missing voltage or
current column skips the theft-signature rule, a missing power column skips
both the power-spike and the consumption-suppression rules, a missing
rolling-average column skips the consumption-suppression rule; in every case
classification still returns a result (the chain is a total function). -/
theorem detect_pattern_skips_rules_on_missing_columns (row : PRow)
    (gs : String → Stats) :
    (row.voltage = none ∨ row.current = none →
      detect_pattern row gs = detectFromFault row (gs row.meter_id)) ∧
    (row.power = none →
      detectFromFault row (gs row.meter_id) = detectFromSupp row ∧
      detectFromSupp row = detectFromAI row) ∧
    (row.rolling_avg_power = none → detectFromSupp row = detectFromAI row) := by
  refine ⟨fun h => ?_, fun h => ?_, fun h => ?_⟩
  · unfold detect_pattern
    rcases h with h | h
    · rw [h]
    · rw [h]
      rcases row.voltage with _ | v <;> rfl
  · constructor
    · unfold detectFromFault
      rw [h]
    · unfold detectFromSupp
      rw [h]
  · unfold detectFromSupp
    rw [h]
    rcases row.power with _ | p <;> rfl

/-- Witness for C10: a reading with no voltage column falls through to the
power-spike stage, and one with no power column falls through to the AI stage. -/
theorem detect_pattern_skips_rules_witness :
    (detect_pattern
        { meter_id := "M", prediction := none, anomaly_score := none,
          voltage := none, current := some 14, power := some 5,
          rolling_avg_power := some 5 }
        (fun _ =>
          { voltage_mean := 230, current_mean := 10, power_mean := 5,
            power_var := some 1 }) =
      detectFromFault
        { meter_id := "M", prediction := none, anomaly_score := none,
          voltage := none, current := some 14, power := some 5,
          rolling_avg_power := some 5 }
        { voltage_mean := 230, current_mean := 10, power_mean := 5,
          power_var := some 1 }) ∧
    (detectFromSupp
        { meter_id := "M", prediction := none, anomaly_score := none,
          voltage := some 230, current := some 10, power := none,
          rolling_avg_power := some 5 } =
      detectFromAI
        { meter_id := "M", prediction := none, anomaly_score := none,
          voltage := some 230, current := some 10, power := none,
          rolling_avg_power := some 5 }) :=
  ⟨(detect_pattern_skips_rules_on_missing_columns _ _).1 (Or.inl rfl),
   ((detect_pattern_skips_rules_on_missing_columns
      { meter_id := "M", prediction := none, anomaly_score := none,
        voltage := some 230, current := some 10, power := none,
        rolling_avg_power := some 5 }
      (fun _ =>
        { voltage_mean := 230, current_mean := 10, power_mean := 5,
          power_var := some 1 })).2.1 rfl).2⟩

/-! ## Helper lemmas about the transformer-overload aggregator -/

/-- The overload update never touches the grouping columns. -/
lemma overload_update_keeps (df : List DRow) (th : ℚ) (r : DRow) :
    (overload_update df th r).meter_id = r.meter_id ∧
    (overload_update df th r).power = r.power ∧
    (overload_update df th r).transformer_id = r.transformer_id ∧
    (overload_update df th r).timestamp = r.timestamp := by
  unfold overload_update
  split
  · exact ⟨rfl, rfl, rfl, rfl⟩
  · split_ifs <;> exact ⟨rfl, rfl, rfl, rfl⟩

/-- Mapping a row function that preserves a filter's test and a projection's
value changes neither the filtered projection. -/
lemma filter_map_map {α β : Type} (l : List α) (g : α → α) (q : α → Bool)
    (F G : α → β) (hq : ∀ r, q (g r) = q r)
    (hF : ∀ r, q r = true → F (g r) = G r) :
    ((l.map g).filter q).map F = (l.filter q).map G := by
  induction l with
  | nil => rfl
  | cons a l ih =>
    simp only [List.map_cons, List.filter_cons, hq a]
    cases hqa : q a
    · simpa [hqa] using ih
    · simpa [hqa, hF a hqa] using ih

/-- The per-meter power mean the aggregator uses is invariant under the
aggregator's own update. -/
lemma meterPowerMean_check (df : List DRow) (th : ℚ) (m : String) :
    meterPowerMean (check_transformer_overload df th) m = meterPowerMean df m := by
  unfold meterPowerMean check_transformer_overload
  rw [filter_map_map df (overload_update df th) _ _ (·.power)
    (fun r => by rw [(overload_update_keeps df th r).1])
    (fun r _ => (overload_update_keeps df th r).2.1)]

/-- `high_load` of an updated row over the updated table equals `high_load` of
the original row over the original table. -/
lemma highLoad_check (df : List DRow) (th : ℚ) (r : DRow) :
    highLoad (check_transformer_overload df th) (overload_update df th r) =
      highLoad df r := by
  unfold highLoad
  rw [(overload_update_keeps df th r).2.1, (overload_update_keeps df th r).1,
    meterPowerMean_check]

/-- The overload fraction of every `(transformer, timestamp)` group is
invariant under the aggregator's own update. -/
lemma overloadPct_check (df : List DRow) (th : ℚ) (t : String) (ts : Nat) :
    overloadPct (check_transformer_overload df th) t ts = overloadPct df t ts := by
  simp only [overloadPct]
  have h :
      ((check_transformer_overload df th).filter
          (fun r => decide (r.transformer_id = some t ∧ r.timestamp = ts))).map
        (fun r => if highLoad (check_transformer_overload df th) r
                  then (1 : ℚ) else 0) =
      (df.filter
          (fun r => decide (r.transformer_id = some t ∧ r.timestamp = ts))).map
        (fun r => if highLoad df r then (1 : ℚ) else 0) := by
    unfold check_transformer_overload
    refine filter_map_map df (overload_update df th) _ _ _ (fun r => ?_)
      (fun r _ => ?_)
    · rw [(overload_update_keeps df th r).2.2.1,
        (overload_update_keeps df th r).2.2.2]
    · have hl := highLoad_check df th r
      unfold check_transformer_overload at hl
      rw [hl]
  rw [h]

/-! ## C4: the overload override -/

/-- C4.  With the default threshold 0.7: a row whose `(transformer, timestamp)`
group has a `high_load` fraction strictly above 0.7 is forced to pattern
`transformer_overload` with risk 0.85 and an explanation reporting the overload
fraction, overriding whatever the classifier produced at that position; a row
whose group fraction is at or below 0.7 passes through unchanged. -/
theorem check_transformer_overload_override (df : List DRow) (i : Nat)
    (hi : i < df.length) (t : String)
    (ht : (df.getD i default).transformer_id = some t) :
    (overloadPct df t (df.getD i default).timestamp > 0.7 →
      (check_transformer_overload df).getD i default =
        { df.getD i default with
            pattern := "transformer_overload", risk_score := 0.85,
            explanation :=
              Expl.overload (overloadPct df t (df.getD i default).timestamp) }) ∧
    (overloadPct df t (df.getD i default).timestamp ≤ 0.7 →
      (check_transformer_overload df).getD i default = df.getD i default) := by
  have hlen : i < (check_transformer_overload df).length := by
    simpa [check_transformer_overload] using hi
  have hget : (check_transformer_overload df).getD i default =
      overload_update df 0.7 (df.getD i default) := by
    rw [List.getD_eq_getElem?_getD, List.getElem?_eq_getElem hlen]
    simp [check_transformer_overload, List.getD_eq_getElem?_getD,
      List.getElem?_eq_getElem hi]
  rw [hget]
  unfold overload_update
  simp only [ht]
  constructor
  · intro h
    rw [if_pos h]
  · intro h
    rw [if_neg (not_lt.2 h)]

/-- Witness for C4: in an eight-row table (four meters on transformer `T1`,
two timestamps) three of the four meters at timestamp 1 run above 1.2 times
their own mean power, so the group fraction is 0.75 > 0.7 and row 4 is
overridden; at timestamp 0 the fraction is 0 ≤ 0.7 and row 0 passes through. -/
theorem check_transformer_overload_override_witness :
    let mk := fun (m : String) (ts : Nat) (p : ℚ) =>
      ({ meter_id := m, timestamp := ts, transformer_id := some "T1",
         kwh_denoised := 1, power := p, rolling_avg_power := p,
         deviation_from_normal := 0, voltage := 230, current := 10,
         energy_kwh := 1, prediction := 1, anomaly_score := 0,
         pattern := "normal", risk_score := 0,
         explanation := Expl.normalOp } : DRow)
    let df := [mk "A" 0 1, mk "B" 0 1, mk "C" 0 1, mk "D" 0 1,
               mk "A" 1 10, mk "B" 1 10, mk "C" 1 10, mk "D" 1 1]
    (overloadPct df "T1" 1 > 0.7 ∧
      (check_transformer_overload df).getD 4 default =
        { df.getD 4 default with
            pattern := "transformer_overload", risk_score := 0.85,
            explanation := Expl.overload (overloadPct df "T1" 1) }) ∧
    (overloadPct df "T1" 0 ≤ 0.7 ∧
      (check_transformer_overload df).getD 0 default = df.getD 0 default) := by
  refine ⟨⟨by with_unfolding_all decide, ?_⟩, ⟨by with_unfolding_all decide, ?_⟩⟩
  · exact (check_transformer_overload_override _ 4 (by decide) "T1"
      (by decide)).1 (by with_unfolding_all decide)
  · exact (check_transformer_overload_override _ 0 (by decide) "T1"
      (by decide)).2 (by with_unfolding_all decide)

/-! ## C9: the aggregator's frame -/

/-- C9.  The aggregator touches at most `pattern`, `risk_score` and
`explanation`: it preserves the row count and the positional order, every other
column of every row is unchanged, a row with a missing `transformer_id` is
returned entirely unchanged, and a table in which no row carries a
`transformer_id` (the behaviour of a table lacking the column) passes through
as a no-op. -/
theorem check_transformer_overload_frame (df : List DRow) (threshold : ℚ) :
    (check_transformer_overload df threshold).length = df.length ∧
    (∀ i : Nat,
      ((check_transformer_overload df threshold).getD i default).meter_id =
          (df.getD i default).meter_id ∧
      ((check_transformer_overload df threshold).getD i default).timestamp =
          (df.getD i default).timestamp ∧
      ((check_transformer_overload df threshold).getD i default).transformer_id =
          (df.getD i default).transformer_id ∧
      ((check_transformer_overload df threshold).getD i default).kwh_denoised =
          (df.getD i default).kwh_denoised ∧
      ((check_transformer_overload df threshold).getD i default).power =
          (df.getD i default).power ∧
      ((check_transformer_overload df threshold).getD i default).rolling_avg_power =
          (df.getD i default).rolling_avg_power ∧
      ((check_transformer_overload df threshold).getD i default).deviation_from_normal =
          (df.getD i default).deviation_from_normal ∧
      ((check_transformer_overload df threshold).getD i default).voltage =
          (df.getD i default).voltage ∧
      ((check_transformer_overload df threshold).getD i default).current =
          (df.getD i default).current ∧
      ((check_transformer_overload df threshold).getD i default).energy_kwh =
          (df.getD i default).energy_kwh ∧
      ((check_transformer_overload df threshold).getD i default).prediction =
          (df.getD i default).prediction ∧
      ((check_transformer_overload df threshold).getD i default).anomaly_score =
          (df.getD i default).anomaly_score) ∧
    (∀ i : Nat, (df.getD i default).transformer_id = none →
      (check_transformer_overload df threshold).getD i default =
        df.getD i default) ∧
    ((∀ r ∈ df, r.transformer_id = none) →
      check_transformer_overload df threshold = df) := by
  have hlen : (check_transformer_overload df threshold).length = df.length := by
    simp [check_transformer_overload]
  have hget : ∀ i : Nat, (check_transformer_overload df threshold).getD i default =
      overload_update df threshold (df.getD i default) := by
    intro i
    by_cases hi : i < df.length
    · have hi' : i < (check_transformer_overload df threshold).length := by
        rw [hlen]; exact hi
      rw [List.getD_eq_getElem?_getD, List.getElem?_eq_getElem hi']
      simp [check_transformer_overload, List.getD_eq_getElem?_getD,
        List.getElem?_eq_getElem hi]
    · have h1 : (check_transformer_overload df threshold).getD i default = default := by
        rw [List.getD_eq_getElem?_getD, List.getElem?_eq_none
          (by rw [hlen]; exact le_of_not_lt hi)]
        rfl
      have h2 : df.getD i default = default := by
        rw [List.getD_eq_getElem?_getD, List.getElem?_eq_none (le_of_not_lt hi)]
        rfl
      rw [h1, h2]
      rfl
  have hnone : ∀ r : DRow, r.transformer_id = none →
      overload_update df threshold r = r := by
    intro r hr
    unfold overload_update
    rw [hr]
  refine ⟨hlen, fun i => ?_, fun i hi => ?_, fun hall => ?_⟩
  · rw [hget i]
    unfold overload_update
    split
    · exact ⟨rfl, rfl, rfl, rfl, rfl, rfl, rfl, rfl, rfl, rfl, rfl, rfl⟩
    · split_ifs <;> exact ⟨rfl, rfl, rfl, rfl, rfl, rfl, rfl, rfl, rfl, rfl, rfl, rfl⟩
  · rw [hget i]
    exact hnone _ hi
  · unfold check_transformer_overload
    have : ∀ r ∈ df, overload_update df threshold r = id r :=
      fun r hr => hnone r (hall r hr)
    rw [List.map_congr_left this, List.map_id]

/-! ## C7: idempotence of the aggregator -/

/-- C7.  The transformer-overload aggregator is idempotent: a second pass over
an already-processed table recomputes the same per-meter means, the same
`high_load` mask and the same group fractions (none of which depend on the
columns the override writes), so it re-applies exactly the same overrides. -/
theorem check_transformer_overload_idempotent (df : List DRow) (threshold : ℚ) :
    check_transformer_overload (check_transformer_overload df threshold) threshold =
      check_transformer_overload df threshold := by
  conv_lhs => rw [check_transformer_overload, check_transformer_overload]
  rw [List.map_map]
  apply List.map_congr_left
  intro r _
  show overload_update (check_transformer_overload df threshold) threshold
      (overload_update df threshold r) = overload_update df threshold r
  rcases htr : r.transformer_id with _ | t
  · have hinner : overload_update df threshold r = r := by
      rw [overload_update, htr]
    rw [hinner, overload_update, htr]
  · have hpct := overloadPct_check df threshold t r.timestamp
    by_cases h : overloadPct df t r.timestamp > threshold
    · have hfst : overload_update df threshold r =
          { r with pattern := "transformer_overload", risk_score := 0.85,
                   explanation := Expl.overload (overloadPct df t r.timestamp) } := by
        rw [overload_update]
        simp only [htr]
        rw [if_pos h]
      rw [hfst, overload_update]
      simp only [htr, hpct]
      rw [if_pos h]
    · have hfst : overload_update df threshold r = r := by
        rw [overload_update]
        simp only [htr]
        rw [if_neg h]
      rw [hfst, overload_update]
      simp only [htr, hpct]
      rw [if_neg h]

/-! ## Helper lemmas about pipeline membership -/

/-- A `getD` access is either a member of the list or the fallback value. -/
lemma getD_mem_or_eq {α : Type} (l : List α) (i : Nat) (d : α) :
    l.getD i d ∈ l ∨ l.getD i d = d := by
  by_cases hi : i < l.length
  · left
    rw [List.getD_eq_getElem?_getD, List.getElem?_eq_getElem hi]
    exact List.getElem_mem hi
  · right
    rw [List.getD_eq_getElem?_getD, List.getElem?_eq_none (le_of_not_lt hi)]
    rfl

/-- Every row of the sorted table is a row of the unsorted table (or, in the
out-of-range corner the total `getD` encoding allows, the default row). -/
lemma mem_sort_values_desc (l : List FRow) (r : FRow)
    (hr : r ∈ sort_values_desc l) : r ∈ l ∨ r = default := by
  unfold sort_values_desc at hr
  obtain ⟨i, -, rfl⟩ := List.mem_map.1 hr
  exact getD_mem_or_eq l i default

/-- The aggregator's update either keeps a row or forces the overload pattern,
risk 0.85 and an overload explanation on it. -/
lemma overload_update_cases (df : List DRow) (th : ℚ) (c : DRow) :
    overload_update df th c = c ∨
    ∃ pct, overload_update df th c =
      { c with pattern := "transformer_overload", risk_score := 0.85,
               explanation := Expl.overload pct } := by
  unfold overload_update
  split
  · exact Or.inl rfl
  · split_ifs
    · exact Or.inr ⟨_, rfl⟩
    · exact Or.inl rfl

/-- Pattern/risk shape of a freshly classified row (before the aggregator). -/
lemma classify_rows_shape (rows : List Reading) (model : Option (Reading → Int × ℚ))
    (c : DRow) (hc : c ∈ classify_rows rows model) :
    (c.pattern = "theft" ∧
      (c.risk_score = 0.9 ∨ c.risk_score = 0.6 ∨
       c.risk_score = 0.8 ∨ c.risk_score = 0.5)) ∨
    (c.pattern = "fault" ∧ (c.risk_score = 0.7 ∨ c.risk_score = 0.4)) ∨
    (c.pattern = "anomaly" ∧ c.risk_score = 0.5) ∨
    (c.pattern = "normal" ∧ c.risk_score = 0) := by
  obtain ⟨r0, -, rfl⟩ := List.mem_map.1 hc
  exact detect_pattern_shape _ _

/-- Shape of a freshly classified row when no model was supplied. -/
lemma classify_rows_shape_no_model (rows : List Reading) (c : DRow)
    (hc : c ∈ classify_rows rows none) :
    c.prediction = 1 ∧ c.anomaly_score = 0 ∧
    ((c.pattern = "theft" ∧
        (((∃ v vm cc cm, c.explanation = Expl.theftSig v vm cc cm) ∧
            c.risk_score = 0.6) ∨
         ((∃ ratio p ra, c.explanation = Expl.suppression ratio p ra) ∧
            c.risk_score = 0.5))) ∨
     (c.pattern = "fault" ∧ c.risk_score = 0.4 ∧
        ∃ p pm w, c.explanation = Expl.powerSpike p pm w) ∨
     (c.pattern = "normal" ∧ c.risk_score = 0 ∧
        c.explanation = Expl.normalOp)) := by
  obtain ⟨r0, -, rfl⟩ := List.mem_map.1 hc
  exact ⟨rfl, rfl, detect_pattern_shape_no_model _ _ rfl⟩

/-- Decomposition of membership in the aggregated decision table. -/
lemma mem_analyze_patterns (rows : List Reading)
    (model : Option (Reading → Int × ℚ)) (r : DRow)
    (hr : r ∈ analyze_patterns rows model) :
    ∃ c ∈ classify_rows rows model,
      r = overload_update (classify_rows rows model) 0.7 c := by
  unfold analyze_patterns check_transformer_overload at hr
  obtain ⟨c, hc, rfl⟩ := List.mem_map.1 hr
  exact ⟨c, hc, rfl⟩

/-! ## C2: risk bounds and the normal-pattern zero risk -/

/-- C2.  After the classifier and the aggregator have both run, every row's
risk score lies in the closed interval from 0 to 1, and a row whose pattern is
`normal` carries risk exactly 0. -/
theorem analyze_patterns_risk_bounds (rows : List Reading)
    (model : Option (Reading → Int × ℚ)) (r : DRow)
    (hr : r ∈ analyze_patterns rows model) :
    (0 ≤ r.risk_score ∧ r.risk_score ≤ 1) ∧
    (r.pattern = "normal" → r.risk_score = 0) := by
  obtain ⟨c, hc, rfl⟩ := mem_analyze_patterns rows model r hr
  rcases overload_update_cases (classify_rows rows model) 0.7 c with heq | ⟨pct, heq⟩ <;>
    rw [heq]
  · rcases classify_rows_shape rows model c hc with
      ⟨hp, hk | hk | hk | hk⟩ | ⟨hp, hk | hk⟩ | ⟨hp, hk⟩ | ⟨hp, hk⟩ <;>
      rw [hk] <;> refine ⟨by norm_num, fun hn => ?_⟩ <;> rw [hp] at hn <;>
      first
        | rfl
        | exact absurd hn (by simp)
  · exact ⟨by norm_num, fun hn => by simp at hn⟩

/-- Witness for C2: a single normal reading flows through the whole pipeline
with risk 0, inside the bounds. -/
theorem analyze_patterns_risk_bounds_witness :
    (0 ≤ sampleDecision.risk_score ∧ sampleDecision.risk_score ≤ 1) ∧
    (sampleDecision.pattern = "normal" → sampleDecision.risk_score = 0) :=
  analyze_patterns_risk_bounds [sampleReading] none sampleDecision
    (by with_unfolding_all decide)

/-! ## C5: graceful degradation without a model -/

/-- C5.  With no trained model supplied (the orchestrator passes `model = None`
whenever the model path does not exist), every row keeps the defaulted outlier
verdict `prediction = 1`, `anomaly_score = 0.0`; no row is classified
`anomaly`; and each outlier-dependent risk takes its non-flagged value: 0.6
when the theft-signature rule fired, 0.4 when the power-spike rule fired, 0.5
when the consumption-suppression rule fired. -/
theorem analyze_patterns_no_model_defaults (rows : List Reading) (r : DRow)
    (hr : r ∈ analyze_patterns rows none) :
    r.prediction = 1 ∧ r.anomaly_score = 0 ∧ r.pattern ≠ "anomaly" ∧
    (r.pattern = "fault" → r.risk_score = 0.4) ∧
    (∀ v vm cc cm, r.explanation = Expl.theftSig v vm cc cm →
      r.risk_score = 0.6) ∧
    (∀ ratio p ra, r.explanation = Expl.suppression ratio p ra →
      r.risk_score = 0.5) := by
  obtain ⟨c, hc, rfl⟩ := mem_analyze_patterns rows none r hr
  obtain ⟨hpred, hscore, hshape⟩ := classify_rows_shape_no_model rows c hc
  rcases overload_update_cases (classify_rows rows none) 0.7 c with heq | ⟨pct, heq⟩ <;>
    rw [heq]
  · refine ⟨hpred, hscore, ?_, ?_, ?_, ?_⟩
    · rcases hshape with ⟨hp, -⟩ | ⟨hp, -⟩ | ⟨hp, -⟩ <;> rw [hp] <;> simp
    · intro hf
      rcases hshape with ⟨hp, -⟩ | ⟨-, hk, -⟩ | ⟨hp, -⟩
      · rw [hp] at hf; simp at hf
      · exact hk
      · rw [hp] at hf; simp at hf
    · intro v vm cc cm he
      rcases hshape with ⟨-, ⟨-, hk⟩ | ⟨⟨ratio, p, ra, hex⟩, -⟩⟩ |
        ⟨-, -, p, pm, w, hex⟩ | ⟨-, -, hex⟩
      · exact hk
      all_goals rw [he] at hex; simp at hex
    · intro ratio p ra he
      rcases hshape with ⟨-, ⟨⟨v, vm, cc, cm, hex⟩, -⟩ | ⟨-, hk⟩⟩ |
        ⟨-, -, p2, pm, w, hex⟩ | ⟨-, -, hex⟩
      · rw [he] at hex; simp at hex
      · exact hk
      all_goals rw [he] at hex; simp at hex
  · refine ⟨hpred, hscore, by simp, by simp, ?_, ?_⟩
    · intro v vm cc cm he
      simp at he
    · intro ratio p ra he
      simp at he

/-- Witness for C5: the single nominal reading processed without a model
keeps the defaulted verdict and the normal pattern. -/
theorem analyze_patterns_no_model_defaults_witness :
    sampleDecision.prediction = 1 ∧ sampleDecision.anomaly_score = 0 ∧
    sampleDecision.pattern ≠ "anomaly" ∧
    (sampleDecision.pattern = "fault" → sampleDecision.risk_score = 0.4) ∧
    (∀ v vm cc cm, sampleDecision.explanation = Expl.theftSig v vm cc cm →
      sampleDecision.risk_score = 0.6) ∧
    (∀ ratio p ra, sampleDecision.explanation = Expl.suppression ratio p ra →
      sampleDecision.risk_score = 0.5) :=
  analyze_patterns_no_model_defaults [sampleReading] sampleDecision
    (by with_unfolding_all decide)

/-! ## C1: one pattern per row, alert iff not normal -/

/-- C1.  Every row of the final decision table carries exactly one of the five
patterns the engine can produce, and its `alert` boolean holds exactly when
that pattern is not `normal` (the alert column is written from the final,
post-aggregator pattern). -/
theorem run_engine_pattern_and_alert (rows : List Reading)
    (model : Option (Reading → Int × ℚ)) (r : FRow)
    (hr : r ∈ run_engine rows model) :
    (r.pattern = "normal" ∨ r.pattern = "theft" ∨ r.pattern = "fault" ∨
     r.pattern = "transformer_overload" ∨ r.pattern = "anomaly") ∧
    (r.alert = true ↔ r.pattern ≠ "normal") := by
  unfold run_engine at hr
  rcases mem_sort_values_desc _ _ hr with hmem | rfl
  · unfold add_alert at hmem
    obtain ⟨d, hd, rfl⟩ := List.mem_map.1 hmem
    refine ⟨?_, by simp⟩
    show d.pattern = "normal" ∨ d.pattern = "theft" ∨ d.pattern = "fault" ∨
      d.pattern = "transformer_overload" ∨ d.pattern = "anomaly"
    obtain ⟨c, hc, rfl⟩ := mem_analyze_patterns rows model d hd
    rcases overload_update_cases (classify_rows rows model) 0.7 c with
      heq | ⟨pct, heq⟩ <;> rw [heq]
    · rcases classify_rows_shape rows model c hc with
        ⟨hp, -⟩ | ⟨hp, -⟩ | ⟨hp, -⟩ | ⟨hp, -⟩ <;> rw [hp] <;> simp
    · simp
  · exact ⟨by with_unfolding_all decide, by with_unfolding_all decide⟩

/-- Witness for C1: the nominal reading's final row has pattern `normal` and
no alert. -/
theorem run_engine_pattern_and_alert_witness :
    (sampleFinal.pattern = "normal" ∨ sampleFinal.pattern = "theft" ∨
     sampleFinal.pattern = "fault" ∨
     sampleFinal.pattern = "transformer_overload" ∨
     sampleFinal.pattern = "anomaly") ∧
    (sampleFinal.alert = true ↔ sampleFinal.pattern ≠ "normal") :=
  run_engine_pattern_and_alert [sampleReading] none sampleFinal
    (by with_unfolding_all decide)

/-! ## Helper lemmas for the final sort (C6) -/

/-- `Array.getD` over a list-backed array is the list's `getD`. -/
lemma toArray_getD (l : List ℚ) (i : Nat) : l.toArray.getD i 0 = l.getD i 0 := by
  simp [Array.getD_eq_get?, List.getD_eq_getElem?_getD]

/-- `getD` of a reversed list, inside bounds. -/
lemma getD_reverse (l : List ℚ) (a : Nat) (ha : a < l.length) :
    l.reverse.getD a 0 = l.getD (l.length - 1 - a) 0 := by
  have ha' : a < l.reverse.length := by simpa using ha
  rw [List.getD_eq_getElem?_getD, List.getElem?_eq_getElem ha',
    List.getD_eq_getElem?_getD, List.getElem?_eq_getElem (by omega)]
  simp

/-- Reflecting the index range: `i ↦ n - 1 - i` maps `range n` to its
reverse. -/
lemma map_sub_range (n : Nat) :
    (List.range n).map (fun i => n - 1 - i) = (List.range n).reverse := by
  induction n with
  | zero => rfl
  | succ m ih =>
    conv_lhs => rw [List.range_succ_eq_map]
    conv_rhs => rw [List.range_succ]
    rw [List.reverse_append]
    simp only [List.map_cons, List.map_map, List.reverse_cons, List.reverse_nil,
      List.nil_append]
    congr 1
    all_goals first
      | omega
      | (rw [← ih]
         apply List.map_congr_left
         intro i _
         simp only [Function.comp_apply]
         omega)

/-- An increasing pair below `n` is a sublist of `range n`. -/
lemma pair_sublist_range {i j n : Nat} (hij : i < j) (hj : j < n) :
    [i, j] <+ List.range n := by
  induction n with
  | zero => omega
  | succ m ih =>
    rw [List.range_succ]
    rcases Nat.lt_or_ge j m with hm | hm
    · exact (ih hm).trans (List.sublist_append_left _ _)
    · have hjm : j = m := by omega
      subst hjm
      have h1 : [i] <+ List.range j := List.singleton_sublist.mpr (List.mem_range.mpr hij)
      exact h1.append (List.Sublist.refl [j])

/-- A duplicate-free list cannot contain a pair as a sublist in both orders. -/
lemma pair_sublist_asymm {a b : Nat} :
    ∀ (p : List Nat), p.Nodup → a ≠ b → [a, b] <+ p → [b, a] <+ p → False := by
  intro p
  induction p with
  | nil =>
    intro _ _ hab _
    simp at hab
  | cons x rest ih =>
    intro hnd hne hab hba
    rw [List.nodup_cons] at hnd
    cases hab with
    | cons _ hab' =>
      cases hba with
      | cons _ hba' => exact ih hnd.2 hne hab' hba'
      | cons₂ hba' => exact hnd.1 (hab'.subset (by simp))
    | cons₂ hab' =>
      cases hba with
      | cons _ hba' => exact hnd.1 (hba'.subset (by simp))
      | cons₂ hba' => exact hne rfl

/-- Below numpy's `SMALL_QUICKSORT` cutoff the whole argsort is one stable
insertion sort: the ascending stable sort of the identity index range. -/
lemma aquicksort_small (v : Array ℚ) (h : v.size ≤ 16) :
    (aquicksort v).toList =
      (List.range v.size).mergeSort
        (fun a b => decide (v.getD a 0 ≤ v.getD b 0)) := by
  unfold aquicksort
  simp only [qsRec]
  rw [if_neg (by omega)]
  rcases Nat.lt_or_ge v.size 2 with h2 | h2
  · rcases Nat.lt_or_ge v.size 1 with h1 | h1
    · have h0 : v.size = 0 := by omega
      rw [h0]
      simp [insSortRange]
    · have h0 : v.size = 1 := by omega
      rw [h0]
      have hr1 : List.range 1 = [0] := rfl
      simp [insSortRange, hr1]
  · rw [insSortRange, if_neg (by omega)]
    simp only [Array.toList_toArray, List.drop_zero, List.take_zero,
      List.nil_append]
    have hn : v.size - 1 + 1 - 0 = v.size := by omega
    rw [hn, List.take_of_length_le (by simp),
      List.drop_of_length_le (by simp; omega)]
    simp

/-- `descLex` never holds both ways. -/
lemma descLex_asymm (vals : List ℚ) (i j : Nat)
    (hij : descLex vals i j) (hji : descLex vals j i) : False := by
  rcases hij with h1 | ⟨h1, h1'⟩ <;> rcases hji with h2 | ⟨h2, h2'⟩
  · exact absurd h2 (lt_asymm h1)
  · exact absurd h1 (by rw [h2]; exact lt_irrefl _)
  · exact absurd h2 (by rw [h1]; exact lt_irrefl _)
  · omega

/-- pandas's descending `nargsort` of at most sixteen NaN-free keys is exactly
the stable descending argsort: positions ordered by "key descending, original
position ascending".  The double reversal around numpy's stable small-array
insertion sort cancels out. -/
lemma nargsortDesc_small (vals : List ℚ) (h : vals.length ≤ 16) :
    nargsortDesc vals =
      (List.range vals.length).mergeSort
        (fun i j => decide (vals.getD j 0 < vals.getD i 0 ∨
          (vals.getD i 0 = vals.getD j 0 ∧ i ≤ j))) := by
  unfold nargsortDesc
  rw [aquicksort_small vals.reverse.toArray (by simpa using h)]
  simp only [Array.size_toArray, List.length_reverse]
  set n := vals.length with hn
  set leV : Nat → Nat → Bool :=
    fun a b => decide (vals.reverse.toArray.getD a 0 ≤ vals.reverse.toArray.getD b 0)
    with hleV
  set lex : Nat → Nat → Bool :=
    fun i j => decide (vals.getD j 0 < vals.getD i 0 ∨
      (vals.getD i 0 = vals.getD j 0 ∧ i ≤ j)) with hlex
  have hvk : ∀ a : Nat, a < n → vals.reverse.toArray.getD a 0 = vals.getD (n - 1 - a) 0 := by
    intro a ha
    rw [toArray_getD, getD_reverse vals a (by omega)]
  have hltrans : ∀ a b c : Nat, leV a b → leV b c → leV a c := by
    intro a b c hab hbc
    simp only [hleV, decide_eq_true_eq] at hab hbc ⊢
    exact le_trans hab hbc
  have hltotal : ∀ a b : Nat, leV a b || leV b a := by
    intro a b
    simp only [hleV, Bool.or_eq_true, decide_eq_true_eq]
    exact le_total _ _
  have hperm : (List.range n).mergeSort leV ~ List.range n := List.mergeSort_perm _ _
  have hmem : ∀ a ∈ (List.range n).mergeSort leV, a < n := by
    intro a ha
    exact List.mem_range.mp (hperm.subset ha)
  have hnodup : ((List.range n).mergeSort leV).Nodup :=
    hperm.nodup_iff.mpr (List.nodup_range n)
  have hsorted := List.sorted_mergeSort hltrans hltotal (List.range n)
  have hL : ((((List.range n).mergeSort leV).map (fun i => n - 1 - i)).reverse).Pairwise
      (descLex vals) := by
    rw [List.pairwise_reverse, List.pairwise_map, List.pairwise_iff_forall_sublist]
    intro a b hab
    have ha : a < n := hmem a (hab.subset (by simp))
    have hb : b < n := hmem b (hab.subset (by simp))
    have hne : a ≠ b := by
      have hnd := hab.nodup hnodup
      simp [List.nodup_cons] at hnd
      exact hnd
    have hle : vals.getD (n - 1 - a) 0 ≤ vals.getD (n - 1 - b) 0 := by
      have h1 := List.pairwise_iff_forall_sublist.mp hsorted hab
      simp only [hleV, decide_eq_true_eq] at h1
      rw [hvk a ha, hvk b hb] at h1
      exact h1
    rcases lt_or_eq_of_le hle with hlt | heq2
    · exact Or.inl hlt
    · have hab2 : a < b := by
        rcases Nat.lt_or_ge a b with h' | h'
        · exact h'
        · have hba : b < a := by omega
          have hlev : leV b a := by
            simp only [hleV, decide_eq_true_eq]
            rw [hvk b hb, hvk a ha]
            exact le_of_eq heq2.symm
          have hsub2 : [b, a] <+ (List.range n).mergeSort leV :=
            List.pair_sublist_mergeSort hltrans hltotal hlev
              (pair_sublist_range hba ha)
          exact (pair_sublist_asymm _ hnodup hne hab hsub2).elim
      exact Or.inr ⟨heq2.symm, by omega⟩
  have hlex_trans : ∀ a b c : Nat, lex a b → lex b c → lex a c := by
    intro a b c h1 h2
    simp only [hlex, decide_eq_true_eq] at h1 h2 ⊢
    rcases h1 with h1 | ⟨h1e, h1le⟩ <;> rcases h2 with h2 | ⟨h2e, h2le⟩
    · exact Or.inl (lt_trans h2 h1)
    · exact Or.inl (by rw [← h2e]; exact h1)
    · exact Or.inl (by rw [h1e]; exact h2)
    · exact Or.inr ⟨h1e.trans h2e, le_trans h1le h2le⟩
  have hlex_total : ∀ a b : Nat, lex a b || lex b a := by
    intro a b
    simp only [hlex, Bool.or_eq_true, decide_eq_true_eq]
    rcases lt_trichotomy (vals.getD a 0) (vals.getD b 0) with h' | h' | h'
    · exact Or.inr (Or.inl h')
    · rcases Nat.le_total a b with h'' | h''
      · exact Or.inl (Or.inr ⟨h', h''⟩)
      · exact Or.inr (Or.inr ⟨h'.symm, h''⟩)
    · exact Or.inl (Or.inl h')
  have hMperm : (List.range n).mergeSort lex ~ List.range n := List.mergeSort_perm _ _
  have hMnodup : ((List.range n).mergeSort lex).Nodup :=
    hMperm.nodup_iff.mpr (List.nodup_range n)
  have hMsorted := List.sorted_mergeSort hlex_trans hlex_total (List.range n)
  have hM : ((List.range n).mergeSort lex).Pairwise (descLex vals) := by
    rw [List.pairwise_iff_forall_sublist]
    intro a b hab
    have hne : a ≠ b := by
      have hnd := hab.nodup hMnodup
      simp [List.nodup_cons] at hnd
      exact hnd
    have h1 := List.pairwise_iff_forall_sublist.mp hMsorted hab
    simp only [hlex, decide_eq_true_eq] at h1
    rcases h1 with h1 | ⟨h1e, h1le⟩
    · exact Or.inl h1
    · exact Or.inr ⟨h1e, by omega⟩
  have hLperm : ((((List.range n).mergeSort leV).map (fun i => n - 1 - i)).reverse) ~
      (List.range n).mergeSort lex := by
    calc (((List.range n).mergeSort leV).map (fun i => n - 1 - i)).reverse
        ~ ((List.range n).mergeSort leV).map (fun i => n - 1 - i) :=
          List.reverse_perm _
      _ ~ (List.range n).map (fun i => n - 1 - i) := hperm.map _
      _ = (List.range n).reverse := map_sub_range n
      _ ~ List.range n := List.reverse_perm _
      _ ~ (List.range n).mergeSort lex := hMperm.symm
  haveI : IsAntisymm Nat (descLex vals) :=
    ⟨fun i j hij hji => (descLex_asymm vals i j hij hji).elim⟩
  exact List.eq_of_perm_of_sorted hLperm hL hM

/-- For decision tables of at most sixteen rows the embedded pandas sort is
the stable descending-by-risk sort. -/
lemma sort_values_desc_small (l : List FRow) (h : l.length ≤ 16) :
    sort_values_desc l = stableSortByRiskDesc l := by
  unfold sort_values_desc stableSortByRiskDesc
  rw [nargsortDesc_small _ (by simpa using h)]
  have hkey : ∀ i : Nat, (l.map (fun r => r.risk_score)).getD i 0 = riskAt l i := by
    intro i
    by_cases hi : i < l.length
    · rw [List.getD_eq_getElem?_getD, List.getElem?_eq_getElem (by simpa using hi),
        riskAt, List.getD_eq_getElem?_getD, List.getElem?_eq_getElem hi]
      simp
    · rw [List.getD_eq_getElem?_getD,
        List.getElem?_eq_none (by simpa using le_of_not_lt hi),
        riskAt, List.getD_eq_getElem?_getD, List.getElem?_eq_none (le_of_not_lt hi)]
      rfl
  have hrel : (fun i j => decide ((l.map (fun r => r.risk_score)).getD j 0 <
        (l.map (fun r => r.risk_score)).getD i 0 ∨
        ((l.map (fun r => r.risk_score)).getD i 0 =
          (l.map (fun r => r.risk_score)).getD j 0 ∧ i ≤ j))) = riskIdxLE l := by
    funext i j
    rw [riskIdxLE]
    simp only [hkey]
  rw [List.length_map, hrel]

/-! ## Array toolkit for the introsort verification -/

/-- `setD` characterised through total `getD` access. -/
lemma getD_setD (a : Array Nat) (i k x : Nat) :
    (a.setD i x).getD k 0 =
      if i < a.size ∧ k = i then x else a.getD k 0 := by
  unfold Array.setD
  split
  · rename_i h
    by_cases hk : k = i
    · subst hk
      rw [if_pos ⟨h, rfl⟩, Array.getD_eq_get?]
      rw [Array.getElem?_lt _ (by simpa using h)]
      simp [Array.getElem_set]
    · rw [if_neg (by tauto), Array.getD_eq_get?, Array.getD_eq_get?,
        Array.getElem?_set_ne _ _ _ (by simpa using Ne.symm hk)]
  · rename_i h
    rw [if_neg (by tauto)]

/-- Swapping preserves the size. -/
lemma size_aswap (t : Array Nat) (i j : Nat) : (aswap t i j).size = t.size := by
  unfold aswap
  simp

/-- In-bounds swap characterised through total `getD` access. -/
lemma getD_aswap (t : Array Nat) (i j k : Nat) (hi : i < t.size) (hj : j < t.size) :
    (aswap t i j).getD k 0 =
      if k = j then t.getD i 0 else if k = i then t.getD j 0 else t.getD k 0 := by
  unfold aswap
  rw [getD_setD, getD_setD]
  simp only [Array.size_setD]
  by_cases hkj : k = j
  · rw [if_pos ⟨hj, hkj⟩, if_pos hkj]
  · rw [if_neg (by tauto), if_neg hkj]
    by_cases hki : k = i
    · rw [if_pos ⟨hi, hki⟩, if_pos hki]
    · rw [if_neg (by tauto), if_neg hki]

lemma length_sliceD (t : Array Nat) (pl pr : Nat) :
    (sliceD t pl pr).length = pr + 1 - pl := by
  simp [sliceD]

lemma getElem_sliceD (t : Array Nat) (pl pr k : Nat)
    (hk : k < (sliceD t pl pr).length) :
    (sliceD t pl pr)[k] = t.getD (pl + k) 0 := by
  simp [sliceD]

lemma mem_sliceD {x : Nat} (t : Array Nat) (pl pr : Nat) :
    x ∈ sliceD t pl pr ↔ ∃ k, pl ≤ k ∧ k ≤ pr ∧ t.getD k 0 = x := by
  simp only [sliceD, List.mem_map, List.mem_range]
  constructor
  · rintro ⟨k, hk, hx⟩
    exact ⟨pl + k, by omega, by omega, hx⟩
  · rintro ⟨k, h1, h2, hx⟩
    refine ⟨k - pl, by omega, ?_⟩
    rw [Nat.add_sub_cancel' h1]
    exact hx

/-- Two arrays agreeing on a range have the same slice there. -/
lemma sliceD_congr {t t' : Array Nat} {pl pr : Nat}
    (h : ∀ k, pl ≤ k → k ≤ pr → t'.getD k 0 = t.getD k 0) :
    sliceD t' pl pr = sliceD t pl pr := by
  unfold sliceD
  apply List.map_congr_left
  intro k hk
  rw [List.mem_range] at hk
  exact h (pl + k) (by omega) (by omega)

lemma rangeSub_refl (t : Array Nat) (pl pr : Nat) : RangeSub t t pl pr :=
  fun _ hx => hx

lemma rangeSub_trans {t1 t2 t3 : Array Nat} {pl pr : Nat}
    (h1 : RangeSub t1 t2 pl pr) (h2 : RangeSub t2 t3 pl pr) :
    RangeSub t1 t3 pl pr :=
  fun x hx => h1 x (h2 x hx)

lemma eqOutside_refl (t : Array Nat) (pl pr : Nat) : EqOutside t t pl pr :=
  fun _ _ => rfl

lemma eqOutside_trans {t1 t2 t3 : Array Nat} {pl pr : Nat}
    (h1 : EqOutside t1 t2 pl pr) (h2 : EqOutside t2 t3 pl pr) :
    EqOutside t1 t3 pl pr :=
  fun k hk => (h2 k hk).trans (h1 k hk)

/-- Enlarging the modified range weakens `EqOutside`. -/
lemma eqOutside_mono {t t' : Array Nat} {a b pl pr : Nat}
    (hsub : pl ≤ a) (hsub' : b ≤ pr) (h : EqOutside t t' a b) :
    EqOutside t t' pl pr :=
  fun k hk => h k (by omega)

/-- Any key predicate satisfied everywhere on a range survives a `RangeSub`
step. -/
lemma rangeSub_keyPred {v : Array ℚ} {t t' : Array Nat} {pl pr : Nat}
    (P : ℚ → Prop) (hsub : RangeSub t t' pl pr)
    (hb : ∀ k, pl ≤ k → k ≤ pr → P (vAt v t k)) :
    ∀ k, pl ≤ k → k ≤ pr → P (vAt v t' k) := by
  intro k h1 h2
  have hm : t'.getD k 0 ∈ sliceD t' pl pr := (mem_sliceD t' pl pr).mpr ⟨k, h1, h2, rfl⟩
  obtain ⟨k', h1', h2', hx⟩ := (mem_sliceD t pl pr).mp (hsub _ hm)
  have : vAt v t' k = vAt v t k' := by
    unfold vAt
    rw [hx]
  rw [this]
  exact hb k' h1' h2'

/-- Sortedness of a range follows from pairwise-sortedness of its slice. -/
lemma sortedRange_of_slice (v : Array ℚ) (t : Array Nat) (pl pr : Nat)
    (h : (sliceD t pl pr).Pairwise (fun a b => v.getD a 0 ≤ v.getD b 0)) :
    SortedRange v t pl pr := by
  intro k k' h1 h2 h3
  rcases eq_or_lt_of_le h2 with rfl | hlt
  · exact le_refl _
  · have hk : k - pl < pr + 1 - pl := by omega
    have hk' : k' - pl < pr + 1 - pl := by omega
    have := List.pairwise_iff_getElem.mp h (k - pl) (k' - pl)
      (by rw [length_sliceD]; exact hk) (by rw [length_sliceD]; exact hk')
      (by omega)
    rw [getElem_sliceD t pl pr _ (by rw [length_sliceD]; exact hk),
      getElem_sliceD t pl pr _ (by rw [length_sliceD]; exact hk')] at this
    have e1 : pl + (k - pl) = k := by omega
    have e2 : pl + (k' - pl) = k' := by omega
    rw [e1, e2] at this
    exact this

/-- A sorted range stays sorted in any array agreeing with it on the range. -/
lemma sortedRange_congr {v : Array ℚ} {t t' : Array Nat} {pl pr : Nat}
    (h : ∀ k, pl ≤ k → k ≤ pr → t'.getD k 0 = t.getD k 0)
    (hs : SortedRange v t pl pr) : SortedRange v t' pl pr := by
  intro k k' h1 h2 h3
  have e1 : vAt v t' k = vAt v t k := by unfold vAt; rw [h k h1 (by omega)]
  have e2 : vAt v t' k' = vAt v t k' := by unfold vAt; rw [h k' (by omega) h3]
  rw [e1, e2]
  exact hs k k' h1 h2 h3

/-- Total access of an in-bounds array cell. -/
lemma array_getD_lt (t : Array Nat) (k : Nat) (hk : k < t.size) :
    t.getD k 0 = t[k] := by
  rw [Array.getD_eq_get?, Array.getElem?_lt _ hk]
  rfl

/-- Total access of a list-backed index array. -/
lemma toArray_getD_nat (l : List Nat) (i : Nat) : l.toArray.getD i 0 = l.getD i 0 := by
  simp [Array.getD_eq_get?, List.getD_eq_getElem?_getD]

/-- The key comparison used by the insertion-sort segments is transitive. -/
lemma keyLE_trans (v : Array ℚ) (a b c : Nat)
    (h1 : decide (v.getD a 0 ≤ v.getD b 0) = true)
    (h2 : decide (v.getD b 0 ≤ v.getD c 0) = true) :
    decide (v.getD a 0 ≤ v.getD c 0) = true := by
  simp only [decide_eq_true_eq] at h1 h2 ⊢
  exact le_trans h1 h2

/-- The key comparison used by the insertion-sort segments is total. -/
lemma keyLE_total (v : Array ℚ) (a b : Nat) :
    (decide (v.getD a 0 ≤ v.getD b 0) || decide (v.getD b 0 ≤ v.getD a 0)) = true := by
  simp only [Bool.or_eq_true, decide_eq_true_eq]
  exact le_total _ _

/-- The segment the insertion sort extracts is exactly the range slice. -/
lemma drop_take_eq_sliceD (t : Array Nat) (pl pr : Nat) (hpl : pl ≤ pr)
    (hpr : pr < t.size) :
    (t.toList.drop pl).take (pr + 1 - pl) = sliceD t pl pr := by
  have hlen : t.toList.length = t.size := by simp
  apply List.ext_getElem
  · rw [List.length_take, List.length_drop, length_sliceD, hlen]
    omega
  · intro i h1 h2
    rw [List.getElem_take, List.getElem_drop]
    have h2' := h2
    rw [length_sliceD] at h2'
    rw [getElem_sliceD t pl pr i h2, array_getD_lt t (pl + i) (by omega)]
    simp

/-- Cell-level description of `insSortRange` on a nonempty in-bounds range. -/
lemma insSortRange_getD (v : Array ℚ) (t : Array Nat) (pl pr : Nat)
    (hpl : pl < pr) (hpr : pr < t.size) (k : Nat) :
    (insSortRange v t pl pr).getD k 0 =
      if k < pl then t.getD k 0
      else if k ≤ pr then
        ((sliceD t pl pr).mergeSort
          (fun a b => decide (v.getD a 0 ≤ v.getD b 0))).getD (k - pl) 0
      else t.getD k 0 := by
  have hlen : t.toList.length = t.size := by simp
  have hlen1 : (t.toList.take pl).length = pl := by
    rw [List.length_take]
    omega
  have hlen2 : (((t.toList.drop pl).take (pr + 1 - pl)).mergeSort
      (fun a b => decide (v.getD a 0 ≤ v.getD b 0))).length = pr + 1 - pl := by
    rw [List.length_mergeSort, List.length_take, List.length_drop, hlen]
    omega
  unfold insSortRange
  rw [if_neg (by omega)]
  rw [toArray_getD_nat]
  rw [List.getD_eq_getElem?_getD]
  by_cases h1 : k < pl
  · rw [if_pos h1]
    rw [List.getElem?_append_left (by rw [List.length_append, hlen1]; omega),
      List.getElem?_append_left (by rw [hlen1]; omega)]
    rw [List.getElem?_eq_getElem (by rw [hlen1]; omega)]
    rw [List.getElem_take]
    rw [array_getD_lt t k (by omega)]
    simp
  · rw [if_neg h1]
    by_cases h2 : k ≤ pr
    · rw [if_pos h2]
      rw [List.getElem?_append_left
        (by rw [List.length_append, hlen1, hlen2]; omega)]
      rw [List.getElem?_append_right (by rw [hlen1]; omega)]
      rw [hlen1, drop_take_eq_sliceD t pl pr (by omega) hpr]
      rw [List.getD_eq_getElem?_getD]
    · rw [if_neg h2]
      rw [List.getElem?_append_right
        (by rw [List.length_append, hlen1, hlen2]; omega)]
      rw [List.length_append, hlen1, hlen2]
      rw [List.getElem?_drop]
      have e : pr + 1 + (k - (pl + (pr + 1 - pl))) = k := by omega
      rw [e]
      by_cases h3 : k < t.size
      · rw [List.getElem?_eq_getElem (by rw [hlen]; omega)]
        rw [array_getD_lt t k h3]
        simp
      · rw [List.getElem?_eq_none (by rw [hlen]; omega)]
        rw [Array.getD_eq_get?, Array.getElem?_ge _ (by omega)]

/-- `insSortRange` sorts its range, fixes everything else, permutes only
range entries, and preserves the size.  (Its slice becomes the stable sort of
the old slice.) -/
lemma insSortRange_spec (v : Array ℚ) (t : Array Nat) (pl pr : Nat)
    (hpr : pr < t.size) :
    SortedRange v (insSortRange v t pl pr) pl pr ∧
    EqOutside t (insSortRange v t pl pr) pl pr ∧
    RangeSub t (insSortRange v t pl pr) pl pr ∧
    (insSortRange v t pl pr).size = t.size := by
  by_cases hpl : pr ≤ pl
  · have heq : insSortRange v t pl pr = t := by
      unfold insSortRange
      rw [if_pos hpl]
    rw [heq]
    refine ⟨?_, eqOutside_refl t pl pr, rangeSub_refl t pl pr, rfl⟩
    intro k k' h1 h2 h3
    have : k = k' := by omega
    subst this
    exact le_refl _
  · have hpl' : pl < pr := by omega
    have hslice : sliceD (insSortRange v t pl pr) pl pr =
        (sliceD t pl pr).mergeSort
          (fun a b => decide (v.getD a 0 ≤ v.getD b 0)) := by
      apply List.ext_getElem
      · rw [length_sliceD, List.length_mergeSort, length_sliceD]
      · intro i h1 h2
        have h1' := h1
        rw [length_sliceD] at h1'
        rw [getElem_sliceD _ pl pr i h1]
        rw [insSortRange_getD v t pl pr hpl' hpr (pl + i)]
        rw [if_neg (by omega), if_pos (by omega)]
        have e : pl + i - pl = i := by omega
        rw [e, List.getD_eq_getElem?_getD, List.getElem?_eq_getElem
          (by rw [List.length_mergeSort, length_sliceD]; omega)]
        rfl
    refine ⟨?_, ?_, ?_, ?_⟩
    · apply sortedRange_of_slice
      rw [hslice]
      apply List.Pairwise.imp ?_
        (List.sorted_mergeSort (keyLE_trans v) (keyLE_total v) (sliceD t pl pr))
      intro a b hab
      simpa using hab
    · intro k hk
      rw [insSortRange_getD v t pl pr hpl' hpr k]
      rcases hk with hk | hk
      · rw [if_pos hk]
      · rw [if_neg (by omega), if_neg (by omega)]
    · intro x hx
      rw [hslice] at hx
      exact (List.mem_mergeSort).mp hx
    · unfold insSortRange
      rw [if_neg (by omega)]
      simp only [Array.size_toArray, List.length_append, List.length_mergeSort,
        List.length_take, List.length_drop, Array.length_toList]
      omega

/-- Key access through an in-bounds swap. -/
lemma vAt_aswap (v : Array ℚ) (t : Array Nat) (i j k : Nat)
    (hi : i < t.size) (hj : j < t.size) :
    vAt v (aswap t i j) k =
      if k = j then vAt v t i else if k = i then vAt v t j else vAt v t k := by
  unfold vAt
  rw [getD_aswap t i j k hi hj]
  split_ifs <;> rfl

/-- A swap inside `pl..pr` changes nothing outside it. -/
lemma eqOutside_aswap (t : Array Nat) (i j pl pr : Nat)
    (hi : i < t.size) (hj : j < t.size)
    (hi1 : pl ≤ i) (hi2 : i ≤ pr) (hj1 : pl ≤ j) (hj2 : j ≤ pr) :
    EqOutside t (aswap t i j) pl pr := by
  intro k hk
  rw [getD_aswap t i j k hi hj, if_neg (by omega), if_neg (by omega)]

/-- A swap inside `pl..pr` only rearranges range entries. -/
lemma rangeSub_aswap (t : Array Nat) (i j pl pr : Nat)
    (hi : i < t.size) (hj : j < t.size)
    (hi1 : pl ≤ i) (hi2 : i ≤ pr) (hj1 : pl ≤ j) (hj2 : j ≤ pr) :
    RangeSub t (aswap t i j) pl pr := by
  intro x hx
  obtain ⟨k, h1, h2, hval⟩ := (mem_sliceD _ pl pr).mp hx
  rw [getD_aswap t i j k hi hj] at hval
  by_cases hc1 : k = j
  · rw [if_pos hc1] at hval
    exact (mem_sliceD t pl pr).mpr ⟨i, hi1, hi2, hval⟩
  · rw [if_neg hc1] at hval
    by_cases hc2 : k = i
    · rw [if_pos hc2] at hval
      exact (mem_sliceD t pl pr).mpr ⟨j, hj1, hj2, hval⟩
    · rw [if_neg hc2] at hval
      exact (mem_sliceD t pl pr).mpr ⟨k, h1, h2, hval⟩

/-- The upward scan `do ++pi while (v[t[pi]] < vp)` stops at the first
position past `pi` whose key is at least the pivot, given a sentinel position
`bound` within fuel reach. -/
lemma scanUp_props (v : Array ℚ) (t : Array Nat) (vp : ℚ) :
    ∀ (fuel pi bound : Nat), pi < bound → bound ≤ pi + fuel →
      ¬ vAt v t bound < vp →
      pi < scanUp v t vp pi fuel ∧ scanUp v t vp pi fuel ≤ bound ∧
      ¬ vAt v t (scanUp v t vp pi fuel) < vp ∧
      (∀ m, pi < m → m < scanUp v t vp pi fuel → vAt v t m < vp) := by
  intro fuel
  induction fuel with
  | zero =>
    intro pi bound h1 h2 h3
    omega
  | succ f ih =>
    intro pi bound h1 h2 h3
    simp only [scanUp]
    by_cases hc : vAt v t (pi + 1) < vp
    · rw [if_pos hc]
      have hb : pi + 1 < bound := by
        rcases Nat.lt_or_ge (pi + 1) bound with h | h
        · exact h
        · have he : bound = pi + 1 := by omega
          rw [he] at h3
          exact absurd hc h3
      obtain ⟨p1, p2, p3, p4⟩ := ih (pi + 1) bound hb (by omega) h3
      refine ⟨by omega, p2, p3, ?_⟩
      intro m hm1 hm2
      rcases Nat.eq_or_lt_of_le (Nat.succ_le_of_lt hm1) with he | hl
      · rw [← he]
        exact hc
      · exact p4 m (by omega) hm2
    · rw [if_neg hc]
      exact ⟨by omega, by omega, hc, fun m hm1 hm2 => by omega⟩

/-- The downward scan `do --pj while (vp < v[t[pj]])` stops at the first
position before `pj` whose key is at most the pivot, given a sentinel position
`bound` within fuel reach. -/
lemma scanDown_props (v : Array ℚ) (t : Array Nat) (vp : ℚ) :
    ∀ (fuel pj bound : Nat), bound < pj → pj ≤ bound + fuel →
      ¬ vp < vAt v t bound →
      scanDown v t vp pj fuel < pj ∧ bound ≤ scanDown v t vp pj fuel ∧
      ¬ vp < vAt v t (scanDown v t vp pj fuel) ∧
      (∀ m, scanDown v t vp pj fuel < m → m < pj → vp < vAt v t m) := by
  intro fuel
  induction fuel with
  | zero =>
    intro pj bound h1 h2 h3
    omega
  | succ f ih =>
    intro pj bound h1 h2 h3
    simp only [scanDown]
    by_cases hc : vp < vAt v t (pj - 1)
    · rw [if_pos hc]
      have hb : bound < pj - 1 := by
        rcases Nat.lt_or_ge bound (pj - 1) with h | h
        · exact h
        · have he : bound = pj - 1 := by omega
          rw [he] at h3
          exact absurd hc h3
      obtain ⟨p1, p2, p3, p4⟩ := ih (pj - 1) bound hb (by omega) h3
      refine ⟨by omega, p2, p3, ?_⟩
      intro m hm1 hm2
      rcases Nat.lt_or_ge m (pj - 1) with hl | hg
      · exact p4 m hm1 hl
      · have he : m = pj - 1 := by omega
        rw [he]
        exact hc
    · rw [if_neg hc]
      exact ⟨by omega, by omega, hc, fun m hm1 hm2 => by omega⟩

/-- Full invariant proof of the pointer-crossing partition loop: it returns a
crossing point inside the open range with all keys left of it at most the
pivot, all keys from it to the parked pivot at least the pivot, the parked
pivot untouched, and only positions strictly inside the range rearranged. -/
lemma partLoop_spec (v : Array ℚ) (vp : ℚ) (pl pr : Nat) :
    ∀ (fuel : Nat) (t : Array Nat) (pi pj : Nat),
    pl + 1 < pr → pr < t.size →
    pl ≤ pi → pi < pj → pj ≤ pr - 1 →
    pj - pi + 1 ≤ fuel →
    (∀ k, pl ≤ k → k ≤ pi → vAt v t k ≤ vp) →
    (∀ k, pj ≤ k → k ≤ pr - 1 → vp ≤ vAt v t k) →
    vAt v t (pr - 1) = vp →
    pl + 1 ≤ (partLoop v vp t pi pj fuel).2 ∧
    (partLoop v vp t pi pj fuel).2 ≤ pr - 1 ∧
    (∀ k, pl ≤ k → k + 1 ≤ (partLoop v vp t pi pj fuel).2 →
      vAt v (partLoop v vp t pi pj fuel).1 k ≤ vp) ∧
    (∀ k, (partLoop v vp t pi pj fuel).2 ≤ k → k ≤ pr - 1 →
      vp ≤ vAt v (partLoop v vp t pi pj fuel).1 k) ∧
    vAt v (partLoop v vp t pi pj fuel).1 (pr - 1) = vp ∧
    EqOutside t (partLoop v vp t pi pj fuel).1 (pl + 1) (pr - 2) ∧
    RangeSub t (partLoop v vp t pi pj fuel).1 pl pr ∧
    (partLoop v vp t pi pj fuel).1.size = t.size := by
  intro fuel
  induction fuel with
  | zero =>
    intro t pi pj h1 h2 h3 h4 h5 h6 h7 h8 h9
    omega
  | succ f ih =>
    intro t pi pj h1 h2 h3 h4 h5 h6 h7 h8 h9
    have hpima : pi < pr - 1 := by omega
    obtain ⟨u1, u2, u3, u4⟩ := scanUp_props v t vp (t.size + 1) pi (pr - 1)
      hpima (by omega) (by rw [h9]; exact lt_irrefl vp)
    obtain ⟨d1, d2, d3, d4⟩ := scanDown_props v t vp (t.size + 1) pj pl
      (by omega) (by omega) (not_lt.mpr (h7 pl (le_refl pl) h3))
    simp only [partLoop]
    by_cases hcross : scanUp v t vp pi (t.size + 1) ≥ scanDown v t vp pj (t.size + 1)
    · rw [if_pos hcross]
      refine ⟨by omega, u2, ?_, ?_, h9, eqOutside_refl _ _ _, rangeSub_refl _ _ _, rfl⟩
      · intro k hk1 hk2
        rcases le_or_lt k pi with hk | hk
        · exact h7 k hk1 hk
        · exact le_of_lt (u4 k hk (by omega))
      · intro k hk1 hk2
        rcases Nat.eq_or_lt_of_le hk1 with he | hgt
        · rw [← he]
          exact not_lt.mp u3
        · rcases Nat.lt_or_ge k pj with hk | hk
          · exact le_of_lt (d4 k (by omega) hk)
          · exact h8 k hk hk2
    · rw [if_neg hcross]
      push_neg at hcross
      have hu_lt : scanUp v t vp pi (t.size + 1) < t.size := by omega
      have hd_lt : scanDown v t vp pj (t.size + 1) < t.size := by omega
      have hnew2 : pr < (aswap t (scanUp v t vp pi (t.size + 1))
          (scanDown v t vp pj (t.size + 1))).size := by
        rw [size_aswap]
        exact h2
      have hleft : ∀ k, pl ≤ k → k ≤ scanUp v t vp pi (t.size + 1) →
          vAt v (aswap t (scanUp v t vp pi (t.size + 1))
            (scanDown v t vp pj (t.size + 1))) k ≤ vp := by
        intro k hk1 hk2
        rw [vAt_aswap v t _ _ k hu_lt hd_lt]
        by_cases hkj : k = scanDown v t vp pj (t.size + 1)
        · omega
        · rw [if_neg hkj]
          by_cases hki : k = scanUp v t vp pi (t.size + 1)
          · rw [if_pos hki]
            exact not_lt.mp d3
          · rw [if_neg hki]
            rcases le_or_lt k pi with hk | hk
            · exact h7 k hk1 hk
            · exact le_of_lt (u4 k hk (by omega))
      have hright : ∀ k, scanDown v t vp pj (t.size + 1) ≤ k → k ≤ pr - 1 →
          vp ≤ vAt v (aswap t (scanUp v t vp pi (t.size + 1))
            (scanDown v t vp pj (t.size + 1))) k := by
        intro k hk1 hk2
        rw [vAt_aswap v t _ _ k hu_lt hd_lt]
        by_cases hkj : k = scanDown v t vp pj (t.size + 1)
        · rw [if_pos hkj]
          exact not_lt.mp u3
        · rw [if_neg hkj]
          by_cases hki : k = scanUp v t vp pi (t.size + 1)
          · omega
          · rw [if_neg hki]
            rcases Nat.lt_or_ge k pj with hk | hk
            · exact le_of_lt (d4 k (by omega) hk)
            · exact h8 k hk hk2
      have hpiv : vAt v (aswap t (scanUp v t vp pi (t.size + 1))
          (scanDown v t vp pj (t.size + 1))) (pr - 1) = vp := by
        rw [vAt_aswap v t _ _ _ hu_lt hd_lt, if_neg (by omega), if_neg (by omega)]
        exact h9
      obtain ⟨q1, q2, q3, q4, q5, q6, q7, q8⟩ := ih
        (aswap t (scanUp v t vp pi (t.size + 1)) (scanDown v t vp pj (t.size + 1)))
        (scanUp v t vp pi (t.size + 1)) (scanDown v t vp pj (t.size + 1))
        h1 hnew2 (by omega) hcross (by omega) (by omega) hleft hright hpiv
      refine ⟨q1, q2, q3, q4, q5, ?_, ?_, ?_⟩
      · exact eqOutside_trans
          (eqOutside_aswap t _ _ (pl + 1) (pr - 2) hu_lt hd_lt
            (by omega) (by omega) (by omega) (by omega)) q6
      · exact rangeSub_trans
          (rangeSub_aswap t _ _ pl pr hu_lt hd_lt
            (by omega) (by omega) (by omega) (by omega)) q7
      · rw [q8, size_aswap]

/-- Postcondition of one full partition step: the pivot lands strictly inside
the range, keys left of it are at most the pivot's key, keys right of it are
at least the pivot's key, and only range positions are rearranged. -/
lemma partitionStep_spec (v : Array ℚ) (t : Array Nat) (pl pr : Nat)
    (hr : pl + 1 < pr) (hpr : pr < t.size) :
    pl + 1 ≤ (partitionStep v t pl pr).2 ∧
    (partitionStep v t pl pr).2 ≤ pr - 1 ∧
    (∀ k, pl ≤ k → k + 1 ≤ (partitionStep v t pl pr).2 →
      vAt v (partitionStep v t pl pr).1 k ≤
        vAt v (partitionStep v t pl pr).1 (partitionStep v t pl pr).2) ∧
    (∀ k, (partitionStep v t pl pr).2 + 1 ≤ k → k ≤ pr →
      vAt v (partitionStep v t pl pr).1 (partitionStep v t pl pr).2 ≤
        vAt v (partitionStep v t pl pr).1 k) ∧
    EqOutside t (partitionStep v t pl pr).1 pl pr ∧
    RangeSub t (partitionStep v t pl pr).1 pl pr ∧
    (partitionStep v t pl pr).1.size = t.size := by
  have hpl_t : pl < t.size := by omega
  set pm := pl + (pr - pl) / 2 with hpm
  have hpm1 : pl < pm := by omega
  have hpm2 : pm < pr := by omega
  have hpm_t : pm < t.size := by omega
  set t1 := if vAt v t pm < vAt v t pl then aswap t pm pl else t with ht1
  have hsz1 : t1.size = t.size := by
    rw [ht1]
    split_ifs
    · exact size_aswap t pm pl
    · rfl
  set t2 := if vAt v t1 pr < vAt v t1 pm then aswap t1 pr pm else t1 with ht2
  have hsz2 : t2.size = t.size := by
    rw [ht2]
    split_ifs
    · rw [size_aswap, hsz1]
    · exact hsz1
  set t3 := if vAt v t2 pm < vAt v t2 pl then aswap t2 pm pl else t2 with ht3
  have hsz3 : t3.size = t.size := by
    rw [ht3]
    split_ifs
    · rw [size_aswap, hsz2]
    · exact hsz2
  set vp := vAt v t3 pm with hvp
  set t4 := aswap t3 pm (pr - 1) with ht4
  have hsz4 : t4.size = t.size := by
    rw [ht4, size_aswap, hsz3]
  set res := partLoop v vp t4 pl (pr - 1) (pr - pl + 2) with hres
  have heq1 : (partitionStep v t pl pr).1 = aswap res.1 res.2 (pr - 1) := by
    rw [hres, ht4, hvp, ht3, ht2, ht1, hpm]
    rfl
  have heq2 : (partitionStep v t pl pr).2 = res.2 := by
    rw [hres, ht4, hvp, ht3, ht2, ht1, hpm]
    rfl
  -- median-of-three ordering facts
  have hm1 : vAt v t1 pl ≤ vAt v t1 pm := by
    rw [ht1]
    split_ifs with h
    · have e1 : vAt v (aswap t pm pl) pl = vAt v t pm := by
        rw [vAt_aswap v t pm pl pl hpm_t hpl_t, if_pos rfl]
      have e2 : vAt v (aswap t pm pl) pm = vAt v t pl := by
        rw [vAt_aswap v t pm pl pm hpm_t hpl_t, if_neg (by omega), if_pos rfl]
      rw [e1, e2]
      exact le_of_lt h
    · exact not_lt.mp h
  have hpr_t1 : pr < t1.size := by omega
  have hpm_t1 : pm < t1.size := by omega
  have hm2 : vAt v t2 pm ≤ vAt v t2 pr := by
    rw [ht2]
    split_ifs with h
    · have e1 : vAt v (aswap t1 pr pm) pm = vAt v t1 pr := by
        rw [vAt_aswap v t1 pr pm pm hpr_t1 hpm_t1, if_pos rfl]
      have e2 : vAt v (aswap t1 pr pm) pr = vAt v t1 pm := by
        rw [vAt_aswap v t1 pr pm pr hpr_t1 hpm_t1, if_neg (by omega), if_pos rfl]
      rw [e1, e2]
      exact le_of_lt h
    · exact not_lt.mp h
  have hm2b : vAt v t2 pl ≤ vAt v t2 pr := by
    rw [ht2]
    split_ifs with h
    · have e1 : vAt v (aswap t1 pr pm) pl = vAt v t1 pl := by
        rw [vAt_aswap v t1 pr pm pl hpr_t1 hpm_t1, if_neg (by omega), if_neg (by omega)]
      have e2 : vAt v (aswap t1 pr pm) pr = vAt v t1 pm := by
        rw [vAt_aswap v t1 pr pm pr hpr_t1 hpm_t1, if_neg (by omega), if_pos rfl]
      rw [e1, e2]
      exact hm1
    · exact le_trans hm1 (not_lt.mp h)
  have hpm_t2 : pm < t2.size := by omega
  have hpl_t2 : pl < t2.size := by omega
  have hm3a : vAt v t3 pl ≤ vAt v t3 pm := by
    rw [ht3]
    split_ifs with h
    · have e1 : vAt v (aswap t2 pm pl) pl = vAt v t2 pm := by
        rw [vAt_aswap v t2 pm pl pl hpm_t2 hpl_t2, if_pos rfl]
      have e2 : vAt v (aswap t2 pm pl) pm = vAt v t2 pl := by
        rw [vAt_aswap v t2 pm pl pm hpm_t2 hpl_t2, if_neg (by omega), if_pos rfl]
      rw [e1, e2]
      exact le_of_lt h
    · exact not_lt.mp h
  have hm3b : vAt v t3 pm ≤ vAt v t3 pr := by
    rw [ht3]
    split_ifs with h
    · have e1 : vAt v (aswap t2 pm pl) pm = vAt v t2 pl := by
        rw [vAt_aswap v t2 pm pl pm hpm_t2 hpl_t2, if_neg (by omega), if_pos rfl]
      have e2 : vAt v (aswap t2 pm pl) pr = vAt v t2 pr := by
        rw [vAt_aswap v t2 pm pl pr hpm_t2 hpl_t2, if_neg (by omega), if_neg (by omega)]
      rw [e1, e2]
      exact hm2b
    · exact hm2
  -- facts about the parked pivot
  have hpm_t3 : pm < t3.size := by omega
  have hpr1_t3 : pr - 1 < t3.size := by omega
  have hf1 : vAt v t4 (pr - 1) = vp := by
    rw [ht4, vAt_aswap v t3 pm (pr - 1) (pr - 1) hpm_t3 hpr1_t3, if_pos rfl, hvp]
  have hf2 : vAt v t4 pl ≤ vp := by
    rw [ht4, vAt_aswap v t3 pm (pr - 1) pl hpm_t3 hpr1_t3,
      if_neg (by omega), if_neg (by omega), hvp]
    exact hm3a
  have hf3 : vp ≤ vAt v t4 pr := by
    rw [ht4, vAt_aswap v t3 pm (pr - 1) pr hpm_t3 hpr1_t3,
      if_neg (by omega), if_neg (by omega), hvp]
    exact hm3b
  obtain ⟨w1, w2, w3, w4, w5, w6, w7, w8⟩ :=
    partLoop_spec v vp pl pr (pr - pl + 2) t4 pl (pr - 1) hr
      (by rw [hsz4]; exact hpr) (le_refl pl) (by omega) (by omega) (by omega)
      (fun k hk1 hk2 => by
        have hk : k = pl := by omega
        rw [hk]
        exact hf2)
      (fun k hk1 hk2 => by
        have hk : k = pr - 1 := by omega
        rw [hk]
        exact le_of_eq hf1.symm)
      hf1
  rw [← hres] at w1 w2 w3 w4 w5 w6 w7 w8
  rw [heq1, heq2]
  have hres_sz : res.1.size = t.size := by rw [w8, hsz4]
  have hres2_sz : res.2 < res.1.size := by omega
  have hpr1_res : pr - 1 < res.1.size := by omega
  have hpivfinal : vAt v (aswap res.1 res.2 (pr - 1)) res.2 = vp := by
    rw [vAt_aswap v res.1 res.2 (pr - 1) res.2 hres2_sz hpr1_res]
    by_cases h : res.2 = pr - 1
    · rw [if_pos h, h, w5]
    · rw [if_neg h, if_pos rfl, w5]
  refine ⟨w1, w2, ?_, ?_, ?_, ?_, ?_⟩
  · intro k hk1 hk2
    rw [hpivfinal, vAt_aswap v res.1 res.2 (pr - 1) k hres2_sz hpr1_res,
      if_neg (by omega), if_neg (by omega)]
    exact w3 k hk1 hk2
  · intro k hk1 hk2
    rw [hpivfinal, vAt_aswap v res.1 res.2 (pr - 1) k hres2_sz hpr1_res]
    by_cases hk3 : k = pr - 1
    · rw [if_pos hk3]
      exact w4 res.2 (le_refl _) w2
    · rw [if_neg hk3, if_neg (by omega)]
      by_cases hk4 : k ≤ pr - 1
      · exact w4 k (by omega) (by omega)
      · have hk5 : k = pr := by omega
        have hconst : res.1.getD pr 0 = t4.getD pr 0 := w6 pr (by omega)
        have hv : vAt v res.1 pr = vAt v t4 pr := by
          unfold vAt
          rw [hconst]
        rw [hk5, hv]
        exact hf3
  · have e01 : EqOutside t t1 pl pr := by
      rw [ht1]
      split_ifs
      · exact eqOutside_aswap t pm pl pl pr hpm_t hpl_t
          (by omega) (by omega) (le_refl pl) (by omega)
      · exact eqOutside_refl t pl pr
    have e12 : EqOutside t1 t2 pl pr := by
      rw [ht2]
      split_ifs
      · exact eqOutside_aswap t1 pr pm pl pr hpr_t1 hpm_t1
          (by omega) (le_refl pr) (by omega) (by omega)
      · exact eqOutside_refl t1 pl pr
    have e23 : EqOutside t2 t3 pl pr := by
      rw [ht3]
      split_ifs
      · exact eqOutside_aswap t2 pm pl pl pr hpm_t2 hpl_t2
          (by omega) (by omega) (le_refl pl) (by omega)
      · exact eqOutside_refl t2 pl pr
    have e34 : EqOutside t3 t4 pl pr := by
      rw [ht4]
      exact eqOutside_aswap t3 pm (pr - 1) pl pr hpm_t3 hpr1_t3
        (by omega) (by omega) (by omega) (by omega)
    have e4r : EqOutside t4 res.1 pl pr := eqOutside_mono (by omega) (by omega) w6
    have er5 : EqOutside res.1 (aswap res.1 res.2 (pr - 1)) pl pr :=
      eqOutside_aswap res.1 res.2 (pr - 1) pl pr hres2_sz hpr1_res
        (by omega) (by omega) (by omega) (by omega)
    exact eqOutside_trans e01 (eqOutside_trans e12 (eqOutside_trans e23
      (eqOutside_trans e34 (eqOutside_trans e4r er5))))
  · have r01 : RangeSub t t1 pl pr := by
      rw [ht1]
      split_ifs
      · exact rangeSub_aswap t pm pl pl pr hpm_t hpl_t
          (by omega) (by omega) (le_refl pl) (by omega)
      · exact rangeSub_refl t pl pr
    have r12 : RangeSub t1 t2 pl pr := by
      rw [ht2]
      split_ifs
      · exact rangeSub_aswap t1 pr pm pl pr hpr_t1 hpm_t1
          (by omega) (le_refl pr) (by omega) (by omega)
      · exact rangeSub_refl t1 pl pr
    have r23 : RangeSub t2 t3 pl pr := by
      rw [ht3]
      split_ifs
      · exact rangeSub_aswap t2 pm pl pl pr hpm_t2 hpl_t2
          (by omega) (by omega) (le_refl pl) (by omega)
      · exact rangeSub_refl t2 pl pr
    have r34 : RangeSub t3 t4 pl pr := by
      rw [ht4]
      exact rangeSub_aswap t3 pm (pr - 1) pl pr hpm_t3 hpr1_t3
        (by omega) (by omega) (by omega) (by omega)
    have rr5 : RangeSub res.1 (aswap res.1 res.2 (pr - 1)) pl pr :=
      rangeSub_aswap res.1 res.2 (pr - 1) pl pr hres2_sz hpr1_res
        (by omega) (by omega) (by omega) (by omega)
    exact rangeSub_trans r01 (rangeSub_trans r12 (rangeSub_trans r23
      (rangeSub_trans r34 (rangeSub_trans w7 rr5))))
  · rw [size_aswap, hres_sz]

/-! ## The heapsort fallback: subtree arithmetic and heap access -/

lemma size_setA (t : Array Nat) (base k x : Nat) : (setA t base k x).size = t.size := by
  unfold setA
  simp

/-- Heap access through a heap write. -/
lemma getA_setA (t : Array Nat) (base k x q : Nat) (hk : 1 ≤ k) (hq : 1 ≤ q)
    (hbk : base + k - 1 < t.size) :
    getA (setA t base k x) base q = if q = k then x else getA t base q := by
  unfold getA setA
  rw [getD_setD]
  by_cases h : q = k
  · subst h
    rw [if_pos ⟨hbk, rfl⟩, if_pos rfl]
  · rw [if_neg (by rintro ⟨-, h2⟩; omega), if_neg h]

lemma keyA_def (v : Array ℚ) (t : Array Nat) (base q : Nat) :
    keyA v t base q = v.getD (getA t base q) 0 := rfl

/-- Heap key through a heap write. -/
lemma keyA_setA (v : Array ℚ) (t : Array Nat) (base k x q : Nat) (hk : 1 ≤ k)
    (hq : 1 ≤ q) (hbk : base + k - 1 < t.size) :
    keyA v (setA t base k x) base q =
      if q = k then v.getD x 0 else keyA v t base q := by
  rw [keyA_def, getA_setA t base k x q hk hq hbk]
  split_ifs <;> rfl

lemma two_pow_succ (d : Nat) : (2 : Nat) ^ (d + 1) = 2 * 2 ^ d := by
  rw [pow_succ]
  ring

lemma inSub_refl (i : Nat) : inSub i i := ⟨0, by simp⟩

lemma inSub_ge {i q : Nat} (h : inSub i q) : i ≤ q := by
  obtain ⟨d, hd⟩ := h
  calc i = q / 2 ^ d := hd.symm
    _ ≤ q := Nat.div_le_self _ _

lemma inSub_child2 {i q : Nat} (h : inSub i q) : inSub i (2 * q) := by
  obtain ⟨d, hd⟩ := h
  refine ⟨d + 1, ?_⟩
  rw [two_pow_succ, ← Nat.div_div_eq_div_mul,
    Nat.mul_div_cancel_left q (by norm_num : 0 < 2)]
  exact hd

lemma inSub_child2' {i q : Nat} (h : inSub i q) : inSub i (2 * q + 1) := by
  obtain ⟨d, hd⟩ := h
  refine ⟨d + 1, ?_⟩
  have h2 : (2 * q + 1) / 2 = q := by omega
  rw [two_pow_succ, ← Nat.div_div_eq_div_mul, h2]
  exact hd

lemma inSub_parent {i q : Nat} (h : inSub i q) (hne : q ≠ i) : inSub i (q / 2) := by
  obtain ⟨d, hd⟩ := h
  cases d with
  | zero =>
    simp at hd
    exact absurd hd hne
  | succ d =>
    refine ⟨d, ?_⟩
    rw [Nat.div_div_eq_div_mul, ← two_pow_succ]
    exact hd

lemma inSub_trans {a b q : Nat} (h1 : inSub a b) (h2 : inSub b q) : inSub a q := by
  obtain ⟨d1, hd1⟩ := h1
  obtain ⟨d2, hd2⟩ := h2
  refine ⟨d2 + d1, ?_⟩
  rw [pow_add, ← Nat.div_div_eq_div_mul, hd2, hd1]

/-- The subtree of `i` is closed under taking children of its members. -/
lemma inSub_closure {i q : Nat} (h : inSub i (q / 2)) : inSub i q := by
  rcases Nat.lt_or_ge (q % 2) 1 with hm | hm
  · have e : q = 2 * (q / 2) := by omega
    have := inSub_child2 h
    rwa [← e] at this
  · have e : q = 2 * (q / 2) + 1 := by omega
    have := inSub_child2' h
    rwa [← e] at this

/-- Every heap position lies in the subtree of the root. -/
lemma inSub_one (q : Nat) : 1 ≤ q → inSub 1 q := by
  induction q using Nat.strong_induction_on with
  | _ q ih =>
    intro hq
    rcases eq_or_lt_of_le hq with h1 | h1
    · subst h1
      exact inSub_refl 1
    · exact inSub_closure (ih (q / 2) (by omega) (by omega))

/-- In a heap the root's key dominates every entry. -/
lemma heap_root_max (v : Array ℚ) (t : Array Nat) (base n : Nat)
    (hh : heapEdges v t base n (fun _ => True)) :
    ∀ p, 1 ≤ p → p ≤ n → keyA v t base p ≤ keyA v t base 1 := by
  intro p
  induction p using Nat.strong_induction_on with
  | _ p ih =>
    intro h1 h2
    rcases eq_or_lt_of_le h1 with he | hlt
    · subst he
      exact le_refl _
    · exact le_trans (hh p (by omega) h2 trivial)
        (ih (p / 2) (by omega) (by omega) (by omega))

/-- One unfolding of the sift-down loop. -/
lemma siftDown_succ (v : Array ℚ) (base n tmp : Nat) (t : Array Nat)
    (i j fuel : Nat) :
    siftDown v base n tmp t i j (fuel + 1) =
      if j ≤ n then
        if v.getD tmp 0 <
            v.getD (getA t base
              (if j < n ∧ v.getD (getA t base j) 0 < v.getD (getA t base (j + 1)) 0
               then j + 1 else j)) 0 then
          siftDown v base n tmp
            (setA t base i (getA t base
              (if j < n ∧ v.getD (getA t base j) 0 < v.getD (getA t base (j + 1)) 0
               then j + 1 else j)))
            (if j < n ∧ v.getD (getA t base j) 0 < v.getD (getA t base (j + 1)) 0
             then j + 1 else j)
            (2 * (if j < n ∧ v.getD (getA t base j) 0 < v.getD (getA t base (j + 1)) 0
                  then j + 1 else j)) fuel
        else setA t base i tmp
      else setA t base i tmp := rfl

/-- Invariant package for the final placement of the held element: writing
`tmp` into the hole keeps every heap edge whose parent lies in the subtree of
`i0`, given the guard and children bounds the loop maintains. -/
lemma siftDown_place (v : Array ℚ) (base n i0 : Nat) (t : Array Nat) (i tmp : Nat)
    (h1 : 1 ≤ i) (h2 : i ≤ n) (h3 : inSub i0 i) (h5 : base + n ≤ t.size)
    (hbelow : ∀ q, 2 ≤ q → q ≤ n → inSub i (q / 2) → q / 2 ≠ i →
      keyA v t base q ≤ keyA v t base (q / 2))
    (hctx : ∀ q, 2 ≤ q → q ≤ n → inSub i0 (q / 2) → ¬ inSub i q →
      keyA v t base q ≤ keyA v t base (q / 2))
    (hguard : i ≠ i0 → v.getD tmp 0 < keyA v t base (i / 2))
    (hstop : ∀ q, 2 ≤ q → q ≤ n → q / 2 = i →
      keyA v t base q ≤ v.getD tmp 0) :
    (∀ r, r < base ∨ base + n ≤ r →
      (setA t base i tmp).getD r 0 = t.getD r 0) ∧
    (∀ p, 1 ≤ p → p ≤ n → ¬ inSub i0 p →
      getA (setA t base i tmp) base p = getA t base p) ∧
    (∀ q, 2 ≤ q → q ≤ n → inSub i0 (q / 2) →
      keyA v (setA t base i tmp) base q ≤
        keyA v (setA t base i tmp) base (q / 2)) ∧
    (∀ p, 1 ≤ p → p ≤ n →
      getA (setA t base i tmp) base p = tmp ∨
      ∃ q, 1 ≤ q ∧ q ≤ n ∧ getA (setA t base i tmp) base p = getA t base q) ∧
    (setA t base i tmp).size = t.size := by
  have hbi : base + i - 1 < t.size := by omega
  refine ⟨?_, ?_, ?_, ?_, size_setA t base i tmp⟩
  · intro r hr
    show (t.setD (base + i - 1) tmp).getD r 0 = t.getD r 0
    rw [getD_setD, if_neg (by rintro ⟨-, h⟩; omega)]
  · intro p hp1 hp2 hp3
    have hpi : p ≠ i := fun he => hp3 (by rw [he]; exact h3)
    rw [getA_setA t base i tmp p h1 hp1 hbi, if_neg hpi]
  · intro q hq2 hqn hpar
    by_cases hqi : q = i
    · have hne : i ≠ i0 := by
        intro he
        rw [hqi, he] at hpar
        have := inSub_ge hpar
        omega
      rw [keyA_setA v t base i tmp q h1 (by omega) hbi,
        keyA_setA v t base i tmp (q / 2) h1 (by omega) hbi]
      rw [if_pos hqi, if_neg (by omega), hqi]
      exact le_of_lt (hguard hne)
    · by_cases hqpi : q / 2 = i
      · rw [keyA_setA v t base i tmp q h1 (by omega) hbi,
          keyA_setA v t base i tmp (q / 2) h1 (by omega) hbi]
        rw [if_neg hqi, if_pos hqpi]
        exact hstop q hq2 hqn hqpi
      · rw [keyA_setA v t base i tmp q h1 (by omega) hbi,
          keyA_setA v t base i tmp (q / 2) h1 (by omega) hbi]
        rw [if_neg hqi, if_neg hqpi]
        by_cases hin : inSub i q
        · exact hbelow q hq2 hqn (inSub_parent hin hqi) hqpi
        · exact hctx q hq2 hqn hpar hin
  · intro p hp1 hp2
    rw [getA_setA t base i tmp p h1 hp1 hbi]
    by_cases hpi : p = i
    · rw [if_pos hpi]
      exact Or.inl rfl
    · rw [if_neg hpi]
      exact Or.inr ⟨p, hp1, hp2, rfl⟩

/-- Full invariant of the sift-down loop: starting from a hole `i` in the
subtree of `i0` whose strict subtrees are heaps, the loop restores every heap
edge whose parent lies in the subtree of `i0`, touches only heap positions in
that subtree, only re-uses existing entries plus the held `tmp`, and keeps the
size. -/
lemma siftDown_spec (v : Array ℚ) (base n i0 : Nat) :
    ∀ fuel t i j tmp,
      1 ≤ i → i ≤ n → inSub i0 i → j = 2 * i → base + n ≤ t.size →
      n < i * 2 ^ fuel →
      (∀ q, 2 ≤ q → q ≤ n → inSub i (q / 2) → q / 2 ≠ i →
        keyA v t base q ≤ keyA v t base (q / 2)) →
      (∀ q, 2 ≤ q → q ≤ n → inSub i0 (q / 2) → ¬ inSub i q →
        keyA v t base q ≤ keyA v t base (q / 2)) →
      (i ≠ i0 → v.getD tmp 0 < keyA v t base (i / 2)) →
      (i ≠ i0 → ∀ q, 2 ≤ q → q ≤ n → q / 2 = i →
        keyA v t base q ≤ keyA v t base (i / 2)) →
      (∀ r, r < base ∨ base + n ≤ r →
        (siftDown v base n tmp t i j fuel).getD r 0 = t.getD r 0) ∧
      (∀ p, 1 ≤ p → p ≤ n → ¬ inSub i0 p →
        getA (siftDown v base n tmp t i j fuel) base p = getA t base p) ∧
      (∀ q, 2 ≤ q → q ≤ n → inSub i0 (q / 2) →
        keyA v (siftDown v base n tmp t i j fuel) base q ≤
          keyA v (siftDown v base n tmp t i j fuel) base (q / 2)) ∧
      (∀ p, 1 ≤ p → p ≤ n →
        getA (siftDown v base n tmp t i j fuel) base p = tmp ∨
        ∃ q, 1 ≤ q ∧ q ≤ n ∧
          getA (siftDown v base n tmp t i j fuel) base p = getA t base q) ∧
      (siftDown v base n tmp t i j fuel).size = t.size := by
  intro fuel
  induction fuel with
  | zero =>
    intro t i j tmp h1 h2 h3 h4 h5 hfuel hbelow hctx hguard hup
    exfalso
    rw [pow_zero, mul_one] at hfuel
    omega
  | succ fuel ih =>
    intro t i j tmp h1 h2 h3 h4 h5 hfuel hbelow hctx hguard hup
    rw [siftDown_succ]
    by_cases hj : j ≤ n
    · rw [if_pos hj]
      set jsel := (if j < n ∧
          v.getD (getA t base j) 0 < v.getD (getA t base (j + 1)) 0
        then j + 1 else j) with hjsel
      have hjsel2 : jsel = 2 * i ∨ jsel = 2 * i + 1 := by
        rw [hjsel]
        split_ifs <;> omega
      have hjsel_le : jsel ≤ n := by
        rw [hjsel]
        split_ifs with hc
        · have := hc.1
          omega
        · omega
      have hji : i < jsel := by omega
      have hjsel_pos : 2 ≤ jsel := by omega
      have hjsel_div : jsel / 2 = i := by omega
      have hselmax : ∀ q, 2 ≤ q → q ≤ n → q / 2 = i →
          keyA v t base q ≤ keyA v t base jsel := by
        intro q hq2 hqn hqd
        have hq_cases : q = j ∨ q = j + 1 := by omega
        rw [hjsel]
        split_ifs with hc
        · rcases hq_cases with he | he
          · rw [he]
            exact le_of_lt hc.2
          · rw [he]
        · rcases hq_cases with he | he
          · rw [he]
          · have hjn : j < n := by omega
            rw [he]
            exact le_of_not_lt (not_and.mp hc hjn)
      by_cases hmv : v.getD tmp 0 < v.getD (getA t base jsel) 0
      · rw [if_pos hmv]
        have hbi : base + i - 1 < t.size := by omega
        set t2 := setA t base i (getA t base jsel) with ht2
        have hisub_jsel : inSub i0 jsel := by
          rcases hjsel2 with he | he
          · rw [he]
            exact inSub_child2 h3
          · rw [he]
            exact inSub_child2' h3
        have hisub_i_jsel : inSub i jsel := by
          rcases hjsel2 with he | he
          · rw [he]
            exact inSub_child2 (inSub_refl i)
          · rw [he]
            exact inSub_child2' (inSub_refl i)
        have hkey2 : ∀ q, 1 ≤ q → keyA v t2 base q =
            if q = i then keyA v t base jsel else keyA v t base q := by
          intro q hq
          rw [ht2, keyA_setA v t base i (getA t base jsel) q h1 hq hbi]
          rfl
        have hget2 : ∀ q, 1 ≤ q → getA t2 base q =
            if q = i then getA t base jsel else getA t base q := by
          intro q hq
          rw [ht2]
          exact getA_setA t base i (getA t base jsel) q h1 hq hbi
        have hbelow2 : ∀ q, 2 ≤ q → q ≤ n → inSub jsel (q / 2) → q / 2 ≠ jsel →
            keyA v t2 base q ≤ keyA v t2 base (q / 2) := by
          intro q hq2 hqn hpar hne
          have hp_ge : jsel ≤ q / 2 := inSub_ge hpar
          have hq_ge : q / 2 ≤ q := Nat.div_le_self _ _
          rw [hkey2 q (by omega), hkey2 (q / 2) (by omega)]
          rw [if_neg (by omega), if_neg (by omega)]
          exact hbelow q hq2 hqn (inSub_trans hisub_i_jsel hpar) (by omega)
        have hctx2 : ∀ q, 2 ≤ q → q ≤ n → inSub i0 (q / 2) → ¬ inSub jsel q →
            keyA v t2 base q ≤ keyA v t2 base (q / 2) := by
          intro q hq2 hqn hpar hnin
          by_cases hqi : q = i
          · have hne : i ≠ i0 := by
              intro he
              rw [hqi, he] at hpar
              have := inSub_ge hpar
              omega
            rw [hkey2 q (by omega), hkey2 (q / 2) (by omega)]
            rw [if_pos hqi, if_neg (by omega), hqi]
            exact hup hne jsel hjsel_pos hjsel_le hjsel_div
          · by_cases hqpi : q / 2 = i
            · rw [hkey2 q (by omega), hkey2 (q / 2) (by omega)]
              rw [if_neg hqi, if_pos hqpi]
              exact hselmax q hq2 hqn hqpi
            · rw [hkey2 q (by omega), hkey2 (q / 2) (by omega)]
              rw [if_neg hqi, if_neg hqpi]
              by_cases hin : inSub i q
              · exact hbelow q hq2 hqn (inSub_parent hin hqi) hqpi
              · exact hctx q hq2 hqn hpar hin
        have hguard2 : jsel ≠ i0 → v.getD tmp 0 < keyA v t2 base (jsel / 2) := by
          intro _
          rw [hjsel_div, hkey2 i h1, if_pos rfl]
          exact hmv
        have hup2 : jsel ≠ i0 → ∀ q, 2 ≤ q → q ≤ n → q / 2 = jsel →
            keyA v t2 base q ≤ keyA v t2 base (jsel / 2) := by
          intro _ q hq2 hqn hqp
          rw [hjsel_div, hkey2 q (by omega), hkey2 i h1]
          rw [if_neg (by omega), if_pos rfl]
          have hb := hbelow q hq2 hqn (by rw [hqp]; exact hisub_i_jsel) (by omega)
          rw [hqp] at hb
          exact hb
        obtain ⟨c1, c2, c3, c4, c5⟩ := ih t2 jsel (2 * jsel) tmp
          (by omega) hjsel_le hisub_jsel rfl
          (by rw [ht2, size_setA]; exact h5)
          (by calc n < i * 2 ^ (fuel + 1) := hfuel
                _ = 2 * i * 2 ^ fuel := by ring
                _ ≤ jsel * 2 ^ fuel := Nat.mul_le_mul_right _ (by omega))
          hbelow2 hctx2 hguard2 hup2
        refine ⟨?_, ?_, c3, ?_, ?_⟩
        · intro r hr
          rw [c1 r hr, ht2]
          show (t.setD (base + i - 1) (getA t base jsel)).getD r 0 = t.getD r 0
          rw [getD_setD, if_neg (by rintro ⟨-, h⟩; omega)]
        · intro p hp1 hp2 hp3
          have hpi : p ≠ i := fun he => hp3 (by rw [he]; exact h3)
          rw [c2 p hp1 hp2 hp3, hget2 p hp1, if_neg hpi]
        · intro p hp1 hp2
          rcases c4 p hp1 hp2 with hc | ⟨p', hp'1, hp'2, hc⟩
          · exact Or.inl hc
          · rw [hc, hget2 p' hp'1]
            by_cases hpi : p' = i
            · rw [if_pos hpi]
              exact Or.inr ⟨jsel, by omega, hjsel_le, rfl⟩
            · rw [if_neg hpi]
              exact Or.inr ⟨p', hp'1, hp'2, rfl⟩
        · rw [c5, ht2]
          exact size_setA t base i (getA t base jsel)
      · rw [if_neg hmv]
        refine siftDown_place v base n i0 t i tmp h1 h2 h3 h5 hbelow hctx hguard ?_
        intro q hq2 hqn hqd
        exact le_trans (hselmax q hq2 hqn hqd) (le_of_not_lt hmv)
    · rw [if_neg hj]
      refine siftDown_place v base n i0 t i tmp h1 h2 h3 h5 hbelow hctx hguard ?_
      intro q hq2 hqn hqd
      exfalso
      omega

/-- Floyd's construction phase: once every hole from `n / 2` down to `L + 1`
has been sifted, sifting the remaining holes yields a full heap; the build
touches only heap positions and permutes only heap entries. -/
lemma heapBuild_spec (v : Array ℚ) (base n : Nat) :
    ∀ L t, base + n ≤ t.size → 2 * L ≤ n →
      heapEdges v t base n (fun p => L + 1 ≤ p) →
      (∀ r, r < base ∨ base + n ≤ r →
        (heapBuild v base n t L).getD r 0 = t.getD r 0) ∧
      heapEdges v (heapBuild v base n t L) base n (fun _ => True) ∧
      (∀ p, 1 ≤ p → p ≤ n → ∃ q, 1 ≤ q ∧ q ≤ n ∧
        getA (heapBuild v base n t L) base p = getA t base q) ∧
      (heapBuild v base n t L).size = t.size := by
  intro L
  induction L with
  | zero =>
    intro t h5 hL hpre
    refine ⟨fun r _ => rfl, ?_, fun p h1 h2 => ⟨p, h1, h2, rfl⟩, rfl⟩
    intro q hq2 hqn _
    exact hpre q hq2 hqn (by omega)
  | succ L ih =>
    intro t h5 hL hpre
    have hstep : heapBuild v base n t (L + 1) =
        heapBuild v base n (siftDown v base n (getA t base (L + 1)) t (L + 1)
          (2 * (L + 1)) (n + 1)) L := rfl
    rw [hstep]
    obtain ⟨c1, c2, c3, c4, c5⟩ := siftDown_spec v base n (L + 1) (n + 1) t (L + 1)
      (2 * (L + 1)) (getA t base (L + 1))
      (by omega) (by omega) (inSub_refl _) rfl h5
      (by calc n < 2 ^ n := Nat.lt_pow_self (by norm_num) n
            _ ≤ 2 ^ (n + 1) := Nat.pow_le_pow_right (by norm_num) (by omega)
            _ = 1 * 2 ^ (n + 1) := (one_mul _).symm
            _ ≤ (L + 1) * 2 ^ (n + 1) := Nat.mul_le_mul_right _ (by omega))
      (by intro q hq2 hqn hpar hne
          have hge := inSub_ge hpar
          exact hpre q hq2 hqn (by omega))
      (by intro q hq2 hqn hpar hnin
          exact absurd (inSub_closure hpar) hnin)
      (fun h => absurd rfl h)
      (fun h => absurd rfl h)
    set t1 := siftDown v base n (getA t base (L + 1)) t (L + 1)
      (2 * (L + 1)) (n + 1) with ht1
    have hpre1 : heapEdges v t1 base n (fun p => L + 1 ≤ p) := by
      intro q hq2 hqn hp
      by_cases hins : inSub (L + 1) (q / 2)
      · exact c3 q hq2 hqn hins
      · have hqne : q ≠ L + 1 := by
          intro he
          rw [he] at hp
          omega
        have hq2ne : q / 2 ≠ L + 1 := fun he => hins (by rw [he]; exact inSub_refl _)
        have hqnin : ¬ inSub (L + 1) q := fun hin => hins (inSub_parent hin hqne)
        have e1 : getA t1 base q = getA t base q := c2 q (by omega) hqn hqnin
        have e2 : getA t1 base (q / 2) = getA t base (q / 2) :=
          c2 (q / 2) (by omega) (by omega) hins
        simp only [keyA_def]
        rw [e1, e2]
        exact hpre q hq2 hqn (by omega)
    obtain ⟨d1, d2, d3, d4⟩ := ih t1 (by rw [c5]; exact h5) (by omega) hpre1
    refine ⟨fun r hr => (d1 r hr).trans (c1 r hr), d2, ?_, d4.trans c5⟩
    intro p hp1 hp2
    obtain ⟨q1, hq11, hq12, he1⟩ := d3 p hp1 hp2
    rcases c4 q1 hq11 hq12 with he2 | ⟨q2, hq21, hq22, he2⟩
    · exact ⟨L + 1, by omega, by omega, by rw [he1, he2]⟩
    · exact ⟨q2, hq21, hq22, by rw [he1, he2]⟩

/-- One unfolding of the extraction phase on a heap of at least two entries. -/
lemma heapExtract_succ2 (v : Array ℚ) (base : Nat) (t : Array Nat) (m : Nat) :
    heapExtract v base t (m + 2) =
      heapExtract v base
        (siftDown v base (m + 1) (getA t base (m + 2))
          (setA t base (m + 2) (getA t base 1)) 1 2 (m + 3)) (m + 1) := rfl

/-- The extraction phase turns a heap on entries `1..m` into an ascending run,
touching only heap positions and permuting only heap entries. -/
lemma heapExtract_spec (v : Array ℚ) (base : Nat) :
    ∀ m t, base + m ≤ t.size →
      heapEdges v t base m (fun _ => True) →
      (∀ p p', 1 ≤ p → p ≤ p' → p' ≤ m →
        keyA v (heapExtract v base t m) base p ≤
          keyA v (heapExtract v base t m) base p') ∧
      (∀ r, r < base ∨ base + m ≤ r →
        (heapExtract v base t m).getD r 0 = t.getD r 0) ∧
      (∀ p, 1 ≤ p → p ≤ m → ∃ q, 1 ≤ q ∧ q ≤ m ∧
        getA (heapExtract v base t m) base p = getA t base q) ∧
      (heapExtract v base t m).size = t.size := by
  intro m
  induction m using Nat.strong_induction_on with
  | _ m ihm =>
    intro t h5 hh
    rcases m with _ | m
    · refine ⟨?_, fun r _ => rfl, fun p h1 h2 => ⟨p, h1, h2, rfl⟩, rfl⟩
      intro p p' h1 h2 h3
      exfalso
      omega
    · rcases m with _ | m
      · refine ⟨?_, fun r _ => rfl, fun p h1 h2 => ⟨p, h1, h2, rfl⟩, rfl⟩
        intro p p' h1 h2 h3
        have he : p = p' := by omega
        rw [he]
      · rw [heapExtract_succ2]
        have hroot := heap_root_max v t base (m + 2) hh
        have hb1 : base + (m + 2) - 1 < t.size := by omega
        set ta := setA t base (m + 2) (getA t base 1) with hta
        have hsza : ta.size = t.size := by
          rw [hta]
          exact size_setA t base (m + 2) (getA t base 1)
        have hkeya : ∀ q, 1 ≤ q → keyA v ta base q =
            if q = m + 2 then keyA v t base 1 else keyA v t base q := by
          intro q hq
          rw [hta, keyA_setA v t base (m + 2) (getA t base 1) q (by omega) hq hb1]
          rfl
        have hgeta : ∀ q, 1 ≤ q → getA ta base q =
            if q = m + 2 then getA t base 1 else getA t base q := by
          intro q hq
          rw [hta]
          exact getA_setA t base (m + 2) (getA t base 1) q (by omega) hq hb1
        have hhb : ∀ q, 2 ≤ q → q ≤ m + 1 → inSub 1 (q / 2) → q / 2 ≠ 1 →
            keyA v ta base q ≤ keyA v ta base (q / 2) := by
          intro q hq2 hqn _ _
          rw [hkeya q (by omega), hkeya (q / 2) (by omega)]
          rw [if_neg (by omega), if_neg (by omega)]
          exact hh q hq2 (by omega) trivial
        have hhc : ∀ q, 2 ≤ q → q ≤ m + 1 → inSub 1 (q / 2) → ¬ inSub 1 q →
            keyA v ta base q ≤ keyA v ta base (q / 2) := by
          intro q hq2 _ _ hnin
          exact absurd (inSub_one q (by omega)) hnin
        obtain ⟨c1, c2, c3, c4, c5⟩ := siftDown_spec v base (m + 1) 1 (m + 3) ta 1 2
          (getA t base (m + 2)) (by omega) (by omega) (inSub_refl 1) rfl
          (by rw [hsza]; omega)
          (by calc m + 1 < 2 ^ (m + 1) := Nat.lt_pow_self (by norm_num) _
                _ ≤ 2 ^ (m + 3) := Nat.pow_le_pow_right (by norm_num) (by omega)
                _ = 1 * 2 ^ (m + 3) := (one_mul _).symm)
          hhb hhc (fun h => absurd rfl h) (fun h => absurd rfl h)
        set tb := siftDown v base (m + 1) (getA t base (m + 2)) ta 1 2 (m + 3)
          with htb
        have hhb2 : heapEdges v tb base (m + 1) (fun _ => True) := by
          intro q hq2 hqn _
          exact c3 q hq2 hqn (inSub_one (q / 2) (by omega))
        obtain ⟨d1, d2, d3, d4⟩ := ihm (m + 1) (by omega) tb
          (by rw [c5, hsza]; omega) hhb2
        set tf := heapExtract v base tb (m + 1) with htf
        have hfix : getA tf base (m + 2) = getA t base 1 := by
          unfold getA
          rw [d2 (base + (m + 2) - 1) (by omega)]
          rw [c1 (base + (m + 2) - 1) (by omega)]
          have hg := hgeta (m + 2) (by omega)
          rw [if_pos rfl] at hg
          exact hg
        have hentries : ∀ p, 1 ≤ p → p ≤ m + 1 → ∃ q, 1 ≤ q ∧ q ≤ m + 2 ∧
            getA tf base p = getA t base q := by
          intro p hp1 hp2
          obtain ⟨q1, hq11, hq12, he1⟩ := d3 p hp1 hp2
          rcases c4 q1 hq11 hq12 with he2 | ⟨q2, hq21, hq22, he2⟩
          · exact ⟨m + 2, by omega, by omega, by rw [he1, he2]⟩
          · refine ⟨q2, hq21, by omega, ?_⟩
            rw [he1, he2, hgeta q2 hq21, if_neg (by omega)]
        refine ⟨?_, ?_, ?_, ?_⟩
        · intro p p' h1 h2 h3
          by_cases hp' : p' ≤ m + 1
          · exact d1 p p' h1 h2 hp'
          · have hp'e : p' = m + 2 := by omega
            have hkf : keyA v tf base (m + 2) = keyA v t base 1 := by
              simp only [keyA_def]
              rw [hfix]
            by_cases hp : p ≤ m + 1
            · rw [hp'e, hkf]
              obtain ⟨q, hq1, hq2, he⟩ := hentries p h1 hp
              calc keyA v tf base p = keyA v t base q := by
                    simp only [keyA_def]
                    rw [he]
                _ ≤ keyA v t base 1 := hroot q hq1 hq2
            · have hpe : p = m + 2 := by omega
              rw [hpe, hp'e]
        · intro r hr
          rw [d2 r (by omega), c1 r (by omega), hta]
          show (t.setD (base + (m + 2) - 1) (getA t base 1)).getD r 0 = t.getD r 0
          rw [getD_setD, if_neg (by rintro ⟨-, h⟩; omega)]
        · intro p hp1 hp2
          by_cases hp : p ≤ m + 1
          · obtain ⟨q, h1, h2, he⟩ := hentries p hp1 hp
            exact ⟨q, h1, h2, he⟩
          · have hpe : p = m + 2 := by omega
            exact ⟨1, by omega, by omega, by rw [hpe, hfix]⟩
        · rw [d4, c5, hsza]

/-- `heapsortRange` sorts its range, fixes everything outside it, permutes
only range entries, and preserves the size. -/
lemma heapsortRange_spec (v : Array ℚ) (t : Array Nat) (pl pr : Nat)
    (hlt : pl < pr) (hpr : pr < t.size) :
    SortedRange v (heapsortRange v t pl pr) pl pr ∧
    EqOutside t (heapsortRange v t pl pr) pl pr ∧
    RangeSub t (heapsortRange v t pl pr) pl pr ∧
    (heapsortRange v t pl pr).size = t.size := by
  have hunf : heapsortRange v t pl pr =
      heapExtract v pl (heapBuild v pl (pr + 1 - pl) t ((pr + 1 - pl) / 2))
        (pr + 1 - pl) := rfl
  rw [hunf]
  set n := pr + 1 - pl with hnn
  have hsize : pl + n ≤ t.size := by omega
  obtain ⟨b1, b2, b3, b4⟩ := heapBuild_spec v pl n (n / 2) t hsize (by omega)
    (by intro q hq2 hqn hp
        exfalso
        omega)
  set tb := heapBuild v pl n t (n / 2) with htb
  obtain ⟨e1, e2, e3, e4⟩ := heapExtract_spec v pl n tb (by rw [b4]; exact hsize) b2
  set tf := heapExtract v pl tb n with htf
  refine ⟨?_, ?_, ?_, ?_⟩
  · intro k k' h1 h2 h3
    have hs := e1 (k - pl + 1) (k' - pl + 1) (by omega) (by omega) (by omega)
    have ek : pl + (k - pl + 1) - 1 = k := by omega
    have ek' : pl + (k' - pl + 1) - 1 = k' := by omega
    simp only [keyA_def, getA] at hs
    rw [ek, ek'] at hs
    exact hs
  · intro k hk
    rw [e2 k (by omega), b1 k (by omega)]
  · intro x hx
    obtain ⟨k, h1, h2, hval⟩ := (mem_sliceD _ pl pr).mp hx
    obtain ⟨q1, hq11, hq12, he1⟩ := e3 (k - pl + 1) (by omega) (by omega)
    obtain ⟨q2, hq21, hq22, he2⟩ := b3 q1 hq11 hq12
    refine (mem_sliceD t pl pr).mpr ⟨pl + q2 - 1, by omega, by omega, ?_⟩
    have ek : pl + (k - pl + 1) - 1 = k := by omega
    have hx2 : getA tf pl (k - pl + 1) = x := by
      unfold getA
      rw [ek]
      exact hval
    rw [← hx2, he1, he2]
    rfl
  · rw [e4, b4]

/-! ## The recursive introsort core sorts every range -/

/-- `RangeSub` on a sub-range extends to an enclosing range when everything
outside the sub-range is untouched. -/
lemma rangeSub_widen {t t' : Array Nat} {a b pl pr : Nat}
    (h1 : pl ≤ a) (h2 : b ≤ pr)
    (hsub : RangeSub t t' a b) (hout : EqOutside t t' a b) :
    RangeSub t t' pl pr := by
  intro x hx
  obtain ⟨k, hk1, hk2, hval⟩ := (mem_sliceD _ pl pr).mp hx
  by_cases hin : a ≤ k ∧ k ≤ b
  · have hmem : x ∈ sliceD t' a b := (mem_sliceD _ a b).mpr ⟨k, hin.1, hin.2, hval⟩
    obtain ⟨k', hk1', hk2', hx'⟩ := (mem_sliceD t a b).mp (hsub x hmem)
    exact (mem_sliceD t pl pr).mpr ⟨k', by omega, by omega, hx'⟩
  · have heq := hout k (by omega)
    exact (mem_sliceD t pl pr).mpr ⟨k, hk1, hk2, by rw [← heq]; exact hval⟩

/-- Glue two sorted halves around a pivot position that dominates the left
half and is dominated by the right half. -/
lemma sorted_glue (v : Array ℚ) (t : Array Nat) (pl pr p2 : Nat)
    (h1 : pl + 1 ≤ p2) (h2 : p2 + 1 ≤ pr)
    (hL : SortedRange v t pl (p2 - 1))
    (hR : SortedRange v t (p2 + 1) pr)
    (hLb : ∀ k, pl ≤ k → k + 1 ≤ p2 → vAt v t k ≤ vAt v t p2)
    (hRb : ∀ k, p2 + 1 ≤ k → k ≤ pr → vAt v t p2 ≤ vAt v t k) :
    SortedRange v t pl pr := by
  intro k k' hk hkk hk'
  by_cases hc1 : k' ≤ p2 - 1
  · exact hL k k' hk hkk hc1
  · by_cases hc2 : p2 + 1 ≤ k
    · exact hR k k' hc2 hkk hk'
    · have hkp : vAt v t k ≤ vAt v t p2 := by
        rcases eq_or_lt_of_le (show k ≤ p2 by omega) with he | hlt
        · exact le_of_eq (by rw [he])
        · exact hLb k hk (by omega)
      have hpk : vAt v t p2 ≤ vAt v t k' := by
        rcases eq_or_lt_of_le (show p2 ≤ k' by omega) with he | hlt
        · exact le_of_eq (by rw [he])
        · exact hRb k' (by omega) hk'
      exact le_trans hkp hpk

/-- One unfolding of the recursive introsort core. -/
lemma qsRec_succ (v : Array ℚ) (t : Array Nat) (pl pr : Nat) (cdepth : Int)
    (fuel : Nat) :
    qsRec v t pl pr cdepth (fuel + 1) =
      if pr - pl > 15 then
        if cdepth < 0 then heapsortRange v t pl pr
        else
          if (partitionStep v t pl pr).2 - pl < pr - (partitionStep v t pl pr).2 then
            qsRec v (qsRec v (partitionStep v t pl pr).1 pl
                ((partitionStep v t pl pr).2 - 1) (cdepth - 1) fuel)
              ((partitionStep v t pl pr).2 + 1) pr (cdepth - 1) fuel
          else
            qsRec v (qsRec v (partitionStep v t pl pr).1
                ((partitionStep v t pl pr).2 + 1) pr (cdepth - 1) fuel)
              pl ((partitionStep v t pl pr).2 - 1) (cdepth - 1) fuel
      else insSortRange v t pl pr := rfl

/-- The recursive introsort core sorts any in-bounds range whose width fits
in the fuel, fixes everything outside the range, permutes only range entries,
and preserves the size — through all three regimes (insertion sort, quicksort
partitioning, heapsort fallback). -/
lemma qsRec_spec (v : Array ℚ) :
    ∀ fuel t pl pr cdepth, pr < t.size → pr + 1 - pl ≤ fuel →
      SortedRange v (qsRec v t pl pr cdepth fuel) pl pr ∧
      EqOutside t (qsRec v t pl pr cdepth fuel) pl pr ∧
      RangeSub t (qsRec v t pl pr cdepth fuel) pl pr ∧
      (qsRec v t pl pr cdepth fuel).size = t.size := by
  intro fuel
  induction fuel with
  | zero =>
    intro t pl pr cdepth hpr hfuel
    refine ⟨?_, eqOutside_refl t pl pr, rangeSub_refl t pl pr, rfl⟩
    intro k k' h1 h2 h3
    exfalso
    omega
  | succ fuel ih =>
    intro t pl pr cdepth hpr hfuel
    rw [qsRec_succ]
    by_cases hbig : pr - pl > 15
    · rw [if_pos hbig]
      by_cases hd : cdepth < 0
      · rw [if_pos hd]
        exact heapsortRange_spec v t pl pr (by omega) hpr
      · rw [if_neg hd]
        obtain ⟨w1, w2, w3, w4, w5, w6, w7⟩ :=
          partitionStep_spec v t pl pr (by omega) hpr
        set t1 := (partitionStep v t pl pr).1 with ht1
        set p2 := (partitionStep v t pl pr).2 with hp2
        by_cases hsm : p2 - pl < pr - p2
        · rw [if_pos hsm]
          obtain ⟨sL, eL, rL, zL⟩ := ih t1 pl (p2 - 1) (cdepth - 1)
            (by rw [w7]; omega) (by omega)
          set t2 := qsRec v t1 pl (p2 - 1) (cdepth - 1) fuel with ht2
          obtain ⟨sR, eR, rR, zR⟩ := ih t2 (p2 + 1) pr (cdepth - 1)
            (by rw [zL, w7]; exact hpr) (by omega)
          set t3 := qsRec v t2 (p2 + 1) pr (cdepth - 1) fuel with ht3
          have hp2v : vAt v t3 p2 = vAt v t1 p2 := by
            unfold vAt
            rw [eR p2 (Or.inl (by omega)), eL p2 (Or.inr (by omega))]
          refine ⟨?_, ?_, ?_, ?_⟩
          · apply sorted_glue v t3 pl pr p2 w1 (by omega)
            · apply sortedRange_congr ?_ sL
              intro k hk1 hk2
              exact eR k (Or.inl (by omega))
            · exact sR
            · intro k hk1 hk2
              have hb := rangeSub_keyPred (fun x => x ≤ vAt v t1 p2) rL
                (fun q hq1 hq2 => w3 q hq1 (by omega)) k hk1 (by omega)
              have e3k : vAt v t3 k = vAt v t2 k := by
                unfold vAt
                rw [eR k (Or.inl (by omega))]
              rw [e3k, hp2v]
              exact hb
            · intro k hk1 hk2
              have hb2 : ∀ q, p2 + 1 ≤ q → q ≤ pr → vAt v t1 p2 ≤ vAt v t2 q := by
                intro q hq1 hq2
                have e2q : vAt v t2 q = vAt v t1 q := by
                  unfold vAt
                  rw [eL q (Or.inr (by omega))]
                rw [e2q]
                exact w4 q hq1 hq2
              rw [hp2v]
              exact rangeSub_keyPred (fun x => vAt v t1 p2 ≤ x) rR hb2 k hk1 hk2
          · exact eqOutside_trans w5 (eqOutside_trans
              (eqOutside_mono (le_refl pl) (by omega) eL)
              (eqOutside_mono (by omega) (le_refl pr) eR))
          · exact rangeSub_trans w6 (rangeSub_trans
              (rangeSub_widen (le_refl pl) (by omega) rL eL)
              (rangeSub_widen (by omega) (le_refl pr) rR eR))
          · rw [zR, zL, w7]
        · rw [if_neg hsm]
          obtain ⟨sR, eR, rR, zR⟩ := ih t1 (p2 + 1) pr (cdepth - 1)
            (by rw [w7]; exact hpr) (by omega)
          set t2 := qsRec v t1 (p2 + 1) pr (cdepth - 1) fuel with ht2
          obtain ⟨sL, eL, rL, zL⟩ := ih t2 pl (p2 - 1) (cdepth - 1)
            (by rw [zR, w7]; omega) (by omega)
          set t3 := qsRec v t2 pl (p2 - 1) (cdepth - 1) fuel with ht3
          have hp2v : vAt v t3 p2 = vAt v t1 p2 := by
            unfold vAt
            rw [eL p2 (Or.inr (by omega)), eR p2 (Or.inl (by omega))]
          refine ⟨?_, ?_, ?_, ?_⟩
          · apply sorted_glue v t3 pl pr p2 w1 (by omega)
            · exact sL
            · apply sortedRange_congr ?_ sR
              intro k hk1 hk2
              exact eL k (Or.inr (by omega))
            · intro k hk1 hk2
              have hb1 : ∀ q, pl ≤ q → q ≤ p2 - 1 → vAt v t2 q ≤ vAt v t1 p2 := by
                intro q hq1 hq2
                have e2q : vAt v t2 q = vAt v t1 q := by
                  unfold vAt
                  rw [eR q (Or.inl (by omega))]
                rw [e2q]
                exact w3 q hq1 (by omega)
              rw [hp2v]
              exact rangeSub_keyPred (fun x => x ≤ vAt v t1 p2) rL hb1 k hk1 (by omega)
            · intro k hk1 hk2
              have hb := rangeSub_keyPred (fun x => vAt v t1 p2 ≤ x) rR
                (fun q hq1 hq2 => w4 q hq1 hq2) k hk1 hk2
              have e3k : vAt v t3 k = vAt v t2 k := by
                unfold vAt
                rw [eL k (Or.inr (by omega))]
              rw [e3k, hp2v]
              exact hb
          · exact eqOutside_trans w5 (eqOutside_trans
              (eqOutside_mono (by omega) (le_refl pr) eR)
              (eqOutside_mono (le_refl pl) (by omega) eL))
          · exact rangeSub_trans w6 (rangeSub_trans
              (rangeSub_widen (by omega) (le_refl pr) rR eR)
              (rangeSub_widen (le_refl pl) (by omega) rL eL))
          · rw [zL, zR, w7]
    · rw [if_neg hbig]
      exact insSortRange_spec v t pl pr hpr

/-- Indexing the backing list of an array through total access. -/
lemma toList_getElem_getD (t : Array Nat) (i : Nat) (h : i < t.toList.length) :
    t.toList[i] = t.getD i 0 := by
  rw [Array.getElem_toList]
  exact (array_getD_lt t i (by simpa using h)).symm

/-- numpy's argsort emits a key-ascending list of valid positions, for every
input size. -/
lemma aquicksort_spec (v : Array ℚ) :
    ((aquicksort v).toList).Pairwise (fun a b => v.getD a 0 ≤ v.getD b 0) ∧
    (aquicksort v).size = v.size ∧
    (∀ x ∈ (aquicksort v).toList, x < v.size) := by
  by_cases h0 : v.size = 0
  · have he : aquicksort v = #[] := by
      unfold aquicksort
      rw [h0]
      rfl
    rw [he, h0]
    refine ⟨List.Pairwise.nil, rfl, ?_⟩
    intro x hx
    simp at hx
  · have hsz : (List.range v.size).toArray.size = v.size := by simp
    obtain ⟨hs, he, hr, hz⟩ := qsRec_spec v (v.size + 1) (List.range v.size).toArray
      0 (v.size - 1) ((2 * Nat.log2 v.size : Nat) : Int)
      (by rw [hsz]; omega) (by omega)
    have hq : aquicksort v = qsRec v (List.range v.size).toArray 0 (v.size - 1)
        ((2 * Nat.log2 v.size : Nat) : Int) (v.size + 1) := rfl
    rw [hq]
    have hlen : (qsRec v (List.range v.size).toArray 0 (v.size - 1)
        ((2 * Nat.log2 v.size : Nat) : Int) (v.size + 1)).toList.length = v.size := by
      rw [Array.length_toList, hz, hsz]
    refine ⟨?_, by rw [hz, hsz], ?_⟩
    · rw [List.pairwise_iff_getElem]
      intro i j hi hj hij
      simp only [toList_getElem_getD]
      exact hs i j (by omega) (by omega) (by rw [hlen] at hj; omega)
    · intro x hx
      obtain ⟨i, hi, hxe⟩ := List.getElem_of_mem hx
      rw [toList_getElem_getD _ i hi] at hxe
      have hmem : x ∈ sliceD (qsRec v (List.range v.size).toArray 0 (v.size - 1)
          ((2 * Nat.log2 v.size : Nat) : Int) (v.size + 1)) 0 (v.size - 1) :=
        (mem_sliceD _ 0 _).mpr ⟨i, by omega, by rw [hlen] at hi; omega, hxe⟩
      obtain ⟨k, hk1, hk2, hkx⟩ :=
        (mem_sliceD _ 0 (v.size - 1)).mp (hr x hmem)
      rw [toArray_getD_nat] at hkx
      have hkv : (List.range v.size).getD k 0 = k := by
        rw [List.getD_eq_getElem?_getD, List.getElem?_range (by omega)]
        rfl
      omega

/-- The key list of a decision table, totally accessed. -/
lemma mapRisk_getD (l : List FRow) (i : Nat) :
    (l.map (fun r => r.risk_score)).getD i 0 = riskAt l i := by
  by_cases hi : i < l.length
  · rw [List.getD_eq_getElem?_getD, List.getElem?_eq_getElem (by simpa using hi),
      riskAt, List.getD_eq_getElem?_getD, List.getElem?_eq_getElem hi]
    simp
  · rw [List.getD_eq_getElem?_getD,
      List.getElem?_eq_none (by simpa using le_of_not_lt hi),
      riskAt, List.getD_eq_getElem?_getD, List.getElem?_eq_none (le_of_not_lt hi)]
    rfl

/-- The embedded pandas descending sort emits a table sorted by `risk_score`
descending, for every table size. -/
lemma sort_values_desc_sorted (df : List FRow) :
    (sort_values_desc df).Pairwise (fun a b => b.risk_score ≤ a.risk_score) := by
  obtain ⟨hpw, hsz, hbd⟩ :=
    aquicksort_spec ((df.map (fun r => r.risk_score)).reverse.toArray)
  have hL : ((df.map (fun r => r.risk_score)).reverse.toArray).size = df.length := by
    simp
  have hform : sort_values_desc df =
      ((aquicksort ((df.map (fun r => r.risk_score)).reverse.toArray)).toList.map
        (fun i => df.getD (df.length - 1 - i) default)).reverse := by
    unfold sort_values_desc nargsortDesc
    rw [List.map_reverse, List.map_map]
    congr 1
    apply List.map_congr_left
    intro i _
    simp only [Function.comp_apply, List.length_map]
  have hkey : ∀ i, i < df.length →
      (df.getD (df.length - 1 - i) default).risk_score =
        ((df.map (fun r => r.risk_score)).reverse.toArray).getD i 0 := by
    intro i hi
    rw [toArray_getD, getD_reverse _ i (by simpa using hi), List.length_map,
      mapRisk_getD]
    rfl
  rw [hform, List.pairwise_reverse, List.pairwise_map,
    List.pairwise_iff_forall_sublist]
  intro a b hab
  have hmema : a ∈ (aquicksort
      ((df.map (fun r => r.risk_score)).reverse.toArray)).toList :=
    hab.subset (by simp)
  have hmemb : b ∈ (aquicksort
      ((df.map (fun r => r.risk_score)).reverse.toArray)).toList :=
    hab.subset (by simp)
  have hba : a < df.length := by
    have := hbd a hmema
    rwa [hL] at this
  have hbb : b < df.length := by
    have := hbd b hmemb
    rwa [hL] at this
  have hcmp := List.pairwise_iff_forall_sublist.mp hpw hab
  rw [← hkey a hba, ← hkey b hbb] at hcmp
  simpa using hcmp

/-! ## C6: the final sort — corrected -/

/-- C6 (amended).  The orchestrator's output is sorted by `risk_score`
descending for every batch: the embedded introsort argsort provably sorts
through its insertion-sort, quicksort-partition and heapsort-fallback regimes
alike.  For batches of at most sixteen rows — numpy's `SMALL_QUICKSORT`
insertion-sort regime, where the argsort is stable and the descending double
reversal cancels — the output is moreover exactly the stable
descending-by-risk sort of the alert-annotated decision table, ties keeping
their original row order; for larger batches the quicksort partitioning
permutes ties (see the seventeen-row counterexample). -/
theorem run_engine_sorted_desc_stable_small (rows : List Reading)
    (model : Option (Reading → Int × ℚ)) :
    (run_engine rows model).Pairwise
      (fun a b => b.risk_score ≤ a.risk_score) ∧
    (rows.length ≤ 16 →
      run_engine rows model =
        stableSortByRiskDesc (add_alert (analyze_patterns rows model))) := by
  constructor
  · unfold run_engine
    exact sort_values_desc_sorted _
  · intro h
    unfold run_engine
    apply sort_values_desc_small
    have hlen : (add_alert (analyze_patterns rows model)).length = rows.length := by
      simp [add_alert, analyze_patterns, check_transformer_overload, classify_rows]
    rw [hlen]
    exact h

/-- Witness for C6 (amended): on a three-row table the theorem's stability
hypothesis is discharged concretely, and the output equals the stable
descending-by-risk sort. -/
theorem run_engine_sorted_desc_stable_small_witness :
    threeRows.length ≤ 16 ∧
    run_engine threeRows none =
      stableSortByRiskDesc (add_alert (analyze_patterns threeRows none)) :=
  ⟨by with_unfolding_all decide,
   (run_engine_sorted_desc_stable_small threeRows none).2
     (by with_unfolding_all decide)⟩

set_option maxRecDepth 4000 in
/-- Counterexample to C6 as stated.  Seventeen nominal readings all classify
`normal` with risk 0, so the final sort sees seventeen equal keys; the
orchestrator's output order (timestamps 0, 9, 15, 14, ..., 2, 16) is a
quicksort-scrambled permutation, not the original row order the stable sort
would preserve — pandas's default `kind='quicksort'` is not stable beyond
numpy's sixteen-element insertion-sort cutoff. -/
theorem run_engine_sort_not_stable_counterexample :
    (run_engine seventeenRows none).map (fun r => r.timestamp) =
      [0, 9, 15, 14, 13, 12, 11, 10, 8, 1, 7, 6, 5, 4, 3, 2, 16] ∧
    (stableSortByRiskDesc (add_alert (analyze_patterns seventeenRows none))).map
        (fun r => r.timestamp) = List.range 17 ∧
    (run_engine seventeenRows none).map (fun r => r.risk_score) =
      List.replicate 17 0 ∧
    run_engine seventeenRows none ≠
      stableSortByRiskDesc (add_alert (analyze_patterns seventeenRows none)) := by
  refine ⟨?_, ?_, ?_, ?_⟩ <;> with_unfolding_all decide

end SmartGrid
